import Mathlib

/-!
gopssh: cache index, artifact naming and label matching.

A shallow embedding of `pkg/cache/type.go` and `pkg/file/io.go` and of the parts of the
Go runtime and standard library they rely on, followed by theorems about the embedded
functions.

Conventions of the embedding:

* a Go `string` is a sequence of bytes (`GoString`); `len` is the number of bytes and
  slicing cuts at byte offsets;
* a Go `map[string]string` is a finite map with unique keys (`GoMap`); the order of its
  entry list stands for the order in which one `range` loop visits the entries; reading a
  missing key yields the zero value `""`;
* a run-time panic (slice bound out of range, nil dereference) is the result `none`;
* calls into packages whose files are not at hand (`rand`, `base64`, `ssh`) are explicit
  inputs of the embedded function;
* the file system is an explicit state, and the errors of the operating system that the
  state does not determine are explicit inputs.
-/

namespace Gopssh

/-! ## Go strings and maps -/

/-- A Go string: an immutable sequence of bytes. -/
abbrev GoString := List UInt8

/-- The bytes (UTF-8) of a string literal of the Go source. -/
def str (s : String) : GoString := s.data.flatMap String.utf8EncodeChar

/-- A Go `map[string]string`; the nil map and the empty map are both `∅`. -/
abbrev GoMap := AList (fun _ : GoString => GoString)

/-- The Go expression `m[k]` on a `map[string]string`: the stored value, or the zero value
`""` when `k` is not a key of `m`. -/
def GoMap.index (m : GoMap) (k : GoString) : GoString := (m.lookup k).getD []

/-- The Go expression `s[:hi]`: panics (`none`) unless `0 ≤ hi ≤ len(s)`. -/
def sliceTo (s : GoString) (hi : Int) : Option GoString :=
  if 0 ≤ hi ∧ hi ≤ (s.length : Int) then some (s.take hi.toNat) else none

/-- The byte `/`, the path separator of `path/filepath` on Unix. -/
def slash : UInt8 := 47

/-- The byte `.`. -/
def dot : UInt8 := 46

/-- Go `filepath.Base` (Unix): the last element of the path. Trailing slashes are removed
before extracting the last element; the empty path gives `.`, a path of slashes only
gives `/`. -/
def filepathBase (path : GoString) : GoString :=
  if path = [] then str "."
  else
    let stripped := path.rdropWhile (· == slash)
    let last := stripped.rtakeWhile (· != slash)
    if last = [] then str "/" else last

/-- Go `filepath.Ext` (Unix): the suffix beginning at the final dot in the final element of
the path, empty if there is no dot. -/
def filepathExt (path : GoString) : GoString :=
  let last := path.rtakeWhile (· != slash)
  if dot ∈ last then dot :: last.rtakeWhile (· != dot) else []

/-- The pieces of a path between its slashes, as `strings.Split(path, "/")` gives them. -/
def splitSlash : GoString → List GoString
  | [] => [[]]
  | b :: rest =>
    if b = slash then [] :: splitSlash rest
    else
      match splitSlash rest with
      | [] => [[b]]
      | e :: es => (b :: e) :: es

/-- The pieces put together with one slash between two neighbours. -/
def joinSlash : List GoString → GoString
  | [] => []
  | [e] => e
  | e :: f :: rest => e ++ slash :: joinSlash (f :: rest)

/-- One path element in Go `filepath.Clean`, on the elements kept so far: an empty
element and `.` are dropped; `..` removes the last kept element when there is one that is
not itself `..`, is dropped at the root, and is kept otherwise; any other element is
kept. -/
def cleanStep (rooted : Bool) (kept : List GoString) (elem : GoString) : List GoString :=
  if elem = [] ∨ elem = str "." then kept
  else if elem = str ".." then
    if kept ≠ [] ∧ kept.getLast? ≠ some (str "..") then kept.dropLast
    else if rooted then kept
    else kept ++ [elem]
  else kept ++ [elem]

/-- Whether a path is rooted: its first byte is the slash. -/
def pathRooted (path : GoString) : Bool := path.head? = some slash

/-- The elements that Go `filepath.Clean` keeps of a path, in order. -/
def keptElements (path : GoString) : List GoString :=
  (splitSlash path).foldl (cleanStep (pathRooted path)) []

/-- Go `filepath.Clean` (Unix): the shortest path equivalent to `path` by lexical
processing. The empty path gives `.`; a rooted path keeps its leading slash; a path
without any kept element gives `.`, or `/` when rooted. -/
def filepathClean (path : GoString) : GoString :=
  if path = [] then str "."
  else if pathRooted path then slash :: joinSlash (keptElements path)
  else if keptElements path = [] then str "." else joinSlash (keptElements path)

/-- Go `filepath.Join` on two elements (Unix): empty leading elements are ignored, the
rest is joined with a slash and cleaned; two empty elements give the empty string. -/
def filepathJoin (a b : GoString) : GoString :=
  if a ≠ [] then filepathClean (a ++ slash :: b)
  else if b ≠ [] then filepathClean b
  else []

/-- The invariant of the elements kept by `filepath.Clean`: every kept element is not
empty, is not `.` and has no slash; a rooted path keeps no `..`; and a kept `..` is
preceded by `..` only. -/
def CleanKept (rooted : Bool) (kept : List GoString) : Prop :=
  (∀ e ∈ kept, e ≠ [] ∧ e ≠ str "." ∧ slash ∉ e) ∧
  (rooted = true → str ".." ∉ kept) ∧
  kept.Chain' (fun x y => y = str ".." → x = str "..")

/-- The spec's "base name with its extension removed": the name without the suffix that
`filepath.Ext` reports for it. -/
def trimExt (name : GoString) : GoString :=
  name.take (name.length - (filepathExt name).length)

/-- The decimal digits of a natural number, as bytes. -/
def fmtNat (n : Nat) : GoString := (Nat.toDigits 10 n).map (fun c => c.toNat.toUInt8)

/-- The verb `%d` of `fmt` on an integer. -/
def fmtInt (n : Int) : GoString :=
  if n < 0 then 45 :: fmtNat n.natAbs else fmtNat n.natAbs

/-- The verb `%#v` of `fmt` on a string: the string as a Go double-quoted literal
(`strconv.Quote`). The escaping of the bytes between the two quotes is the input
`escape`. -/
def fmtSharpV (escape : GoString → GoString) (s : GoString) : GoString :=
  34 :: (escape s ++ [34])

/-! ## pkg/cache/type.go -/

/-- The constant `cacheFilePrefix`. -/
def cacheFilePrefix : GoString := str "cache"

/-- The constant `cacheIndexName`. -/
def cacheIndexName : GoString := str "cache_index.yaml"

/-- The constant `cacheDirName`. -/
def cacheDirName : GoString := str ".gopssh/.cache"

/-- The constant `randStringLength`. -/
def randStringLength : Nat := 5

/-- Modelled from the spec: `ssh.Address` of package `pkg/ssh`, with the two fields that
`String` and `StringDecodePassword` read (`Ip` under `%s`, `Port` under `%d`). -/
structure Address where
  Ip : GoString
  Port : Int
  deriving DecidableEq

/-- Modelled from the spec: `ssh.SSH` of package `pkg/ssh`, the connection descriptor
(address, port, username, encoded password). -/
structure SSH where
  Address : Address
  Username : GoString
  Password : GoString
  deriving DecidableEq

/-- The struct `Instance`; `SSH` is a pointer and may be nil (`none`). -/
structure Instance where
  SSH : Option SSH
  Labels : GoMap
  deriving DecidableEq

/-- The type `Instances`. -/
abbrev Instances := List Instance

/-- The struct `Cache`. -/
structure Cache where
  ConfigPath : GoString
  InstancesPath : GoString
  ModTime : Int
  Instances : Instances
  deriving DecidableEq

/-- The type `CacheIndex` restricted to slices all of whose pointers are non-nil: the
entries themselves. -/
abbrev CacheIndex := List Cache

/-- The type `CacheIndex` as Go declares it, a slice of pointers: `none` is a nil
pointer. -/
abbrev CacheIndexPtr := List (Option Cache)

/-- The function `GetCacheDir`: the variable `cacheDir`, where `home` is the value of
`file.MustGetUserHome()`. -/
def GetCacheDir (home : GoString) : GoString := filepathJoin home cacheDirName

/-- The function `GetCacheIndexPath`: the variable `cacheIndexPath`. -/
def GetCacheIndexPath (home : GoString) : GoString :=
  filepathJoin (GetCacheDir home) cacheIndexName

/-- The method `CacheIndex.GetCacheByConfigPath`: scan from the front, return the first
entry whose `ConfigPath` equals `configPath`, nil (`none`) when the scan ends. -/
def CacheIndex.GetCacheByConfigPath : CacheIndex → GoString → Option Cache
  | [], _ => none
  | cache :: rest, configPath =>
    if cache.ConfigPath = configPath then some cache
    else CacheIndex.GetCacheByConfigPath rest configPath

/-- The method `CacheIndex.GetCacheByConfigPath` on a slice that may hold nil pointers.
The scan reads `cache.ConfigPath` of every element it reaches: on a nil element the call
panics (outer `none`); otherwise it returns the first matching entry
(`some (some cache)`) or nil when the scan ends (`some none`). -/
def CacheIndexPtr.GetCacheByConfigPath : CacheIndexPtr → GoString → Option (Option Cache)
  | [], _ => some none
  | none :: _, _ => none
  | some cache :: rest, configPath =>
    if cache.ConfigPath = configPath then some (some cache)
    else CacheIndexPtr.GetCacheByConfigPath rest configPath

/-- The function `GenerateCacheFileNameByConfig`; `token` is the string returned by
`rand.String(randStringLength)`. The result is `none` when the slice expression
`cfgName[:len(cfgName)-5]` panics. -/
def GenerateCacheFileNameByConfig (configPath token : GoString) : Option GoString :=
  let cfgName := filepathBase configPath
  match sliceTo cfgName ((cfgName.length : Int) - 5) with
  | none => none
  | some stem => some (cacheFilePrefix ++ str "_" ++ stem ++ str "_" ++ token ++ str ".yaml")

/-- The function `GenerateCacheFilePathByConfig`; `none` when the name generation
panics. -/
def GenerateCacheFilePathByConfig (home configPath token : GoString) : Option GoString :=
  match GenerateCacheFileNameByConfig configPath token with
  | none => none
  | some name => some (filepathJoin (GetCacheDir home) name)

/-- The loop of `HasLabels` over the entries of the filter, in iteration order. -/
def hasLabelsLoop (own : GoMap) : List (Sigma fun _ : GoString => GoString) → Bool
  | [] => true
  | ⟨k, v⟩ :: rest => if own.index k ≠ v then false else hasLabelsLoop own rest

/-- The method `Instance.HasLabels`. -/
def Instance.HasLabels (i : Instance) (labels : GoMap) : Bool :=
  hasLabelsLoop i.Labels labels.entries

/-- The function `PrettyMap`: `output` starts as `"{ "`, every entry appends
`key: value, `, and the last two bytes are cut before `" }"` is appended. The slice
bound `len(output)-2` is always in range, since `output` keeps its two initial bytes. -/
def PrettyMap (input : GoMap) : GoString :=
  let output := input.entries.foldl (fun acc e => acc ++ (e.1 ++ str ": " ++ e.2 ++ str ", "))
    (str "\x7b ")
  output.take (output.length - 2) ++ str " \x7d"

/-- The method `Instance.String`; `none` when the `SSH` pointer is nil. -/
def Instance.String (i : Instance) : Option GoString :=
  match i.SSH with
  | none => none
  | some s =>
    some (str "Ip: " ++ s.Address.Ip ++ str ", Port: " ++ fmtInt s.Address.Port
      ++ str ", Username: " ++ s.Username ++ str ", Password: " ++ s.Password
      ++ str ", Labels: " ++ PrettyMap i.Labels)

/-- The method `Instance.StringDecodePassword`; `decode` is `base64.Decode`, with
`Except.error` for a non-nil error. The result is the returned pair (line, error), or
`none` when the `SSH` pointer is nil. -/
def Instance.StringDecodePassword (decode : GoString → Except GoString GoString)
    (escape : GoString → GoString) (i : Instance) : Option (GoString × Option GoString) :=
  match i.SSH with
  | none => none
  | some s =>
    let pwd := s.Password
    match decode pwd with
    | .error err => some ([], some err)
    | .ok decPwd =>
      some (str "Ip: " ++ s.Address.Ip ++ str ", Port: " ++ fmtInt s.Address.Port
        ++ str ", Username: " ++ s.Username ++ str ", Password: " ++ decPwd
        ++ str ", Labels: " ++ fmtSharpV escape (PrettyMap i.Labels), none)

/-! ## The Cache Decision Engine -/

/-- Modelled from the spec: the external collaborators of the Cache Decision Engine, whose
code is not in `pkg/cache/type.go`, as seen during one call of `Resolve`. `modTime` is
the filesystem accessor's current modification time of a configuration file, `parse` the
configuration parser applied to the file at a path (`none` for a `ConfigError`), `load`
the deserialization of the artifact at a path (`none` when it is missing or corrupt) and
`artifact` the freshly generated artifact path for a configuration path. -/
structure Collaborators where
  modTime : GoString → Int
  parse : GoString → Option Instances
  load : GoString → Option Instances
  artifact : GoString → GoString

/-- Modelled from the spec: the observable steps of one call of `Resolve`. -/
inductive Effect where
  | indexRead
  | indexWrite
  | parseConfig (configPath : GoString)
  | artifactRead (path : GoString)
  | artifactWrite (path : GoString)
  deriving DecidableEq

/-- Modelled from the spec: what one call of `Resolve` leaves behind: the instances handed
to the caller (`none` for a `ConfigError`), the cache index afterwards, and the steps
taken, in order. -/
structure Resolution where
  result : Option Instances
  index : CacheIndex
  effects : List Effect
  deriving DecidableEq

/-- Modelled from the spec: "update the existing entry's `mod_time` and `instances_path`
in place (same index position)", on the entry that the lookup returns. -/
def updateEntry : CacheIndex → Cache → CacheIndex
  | [], _ => []
  | cache :: rest, fresh =>
    if cache.ConfigPath = fresh.ConfigPath then fresh :: rest
    else cache :: updateEntry rest fresh

/-- Modelled from the spec: the common tail of the branches "not found" and "changed" of
`Resolve` (§4.3): parse the configuration afresh, serialize the instances to a newly named
artifact, store the new entry with `store` and persist the index. A parse failure ends
the call with a `ConfigError` and leaves the index as it was. -/
def refresh (x : Collaborators) (index : CacheIndex) (configPath : GoString)
    (store : CacheIndex → Cache → CacheIndex) (before : List Effect) : Resolution :=
  match x.parse configPath with
  | none => ⟨none, index, before ++ [Effect.parseConfig configPath]⟩
  | some instances =>
    let entry : Cache :=
      { ConfigPath := configPath
        InstancesPath := x.artifact configPath
        ModTime := x.modTime configPath
        Instances := instances }
    ⟨some instances, store index entry,
      before ++ [Effect.parseConfig configPath, Effect.artifactWrite entry.InstancesPath,
        Effect.indexWrite]⟩

/-- Modelled from the spec: the Cache Decision Engine `Resolve(configPath, useCache)` of
§4.3, whose code is not in `pkg/cache/type.go` (the file holds its flow chart and the
index lookup it uses). Without `useCache` the configuration is parsed and the index is
neither read nor written. With `useCache` the index is consulted: an absent entry is
created and appended, an entry with another modification time is rebuilt in place, and
an entry with the current modification time has its artifact loaded, falling back to the
rebuild when the artifact does not deserialize. -/
def Resolve (x : Collaborators) (index : CacheIndex) (configPath : GoString)
    (useCache : Bool) : Resolution :=
  if useCache = false then
    ⟨x.parse configPath, index, [Effect.parseConfig configPath]⟩
  else
    match index.GetCacheByConfigPath configPath with
    | none => refresh x index configPath (fun idx entry => idx ++ [entry]) [Effect.indexRead]
    | some cache =>
      if cache.ModTime = x.modTime configPath then
        match x.load cache.InstancesPath with
        | some instances =>
          ⟨some instances, index, [Effect.indexRead, Effect.artifactRead cache.InstancesPath]⟩
        | none =>
          refresh x index configPath updateEntry
            [Effect.indexRead, Effect.artifactRead cache.InstancesPath]
      else refresh x index configPath updateEntry [Effect.indexRead]

/-! ## pkg/file/io.go over an explicit file system -/

/-- What a path of the file system holds: a regular file with its content, or a
directory. -/
inductive Node where
  | file (content : GoString)
  | dir
  deriving DecidableEq

/-- The state of the file system: the paths that exist, each with its node. -/
abbrev FileSystem := AList (fun _ : GoString => Node)

/-- Go `os.Create`: creates the file or truncates it to length zero. `fault` is the error
of the operating system, if any, that the state does not determine (permissions, a
missing parent directory); creating over a directory fails as well. A failing call leaves
the state as it was. -/
def osCreate (fs : FileSystem) (fault : Option GoString) (path : GoString) :
    Except GoString FileSystem :=
  match fault with
  | some err => .error err
  | none =>
    match fs.lookup path with
    | some Node.dir => .error (str "is a directory")
    | _ => .ok (fs.insert path (Node.file []))

/-- Go `(*os.File).Write` (and `WriteString`) on a file just created at `path`. Without
a fault the file holds `content` and the error is nil; with the fault `(n, err)` the
operating system accepts `n` bytes, the file holds those bytes, and the call returns
`err`. -/
def fileWrite (fs : FileSystem) (fault : Option (Nat × GoString)) (path content : GoString) :
    Option GoString × FileSystem :=
  match fault with
  | none => (none, fs.insert path (Node.file content))
  | some (n, err) => (some err, fs.insert path (Node.file (content.take n)))

/-- The function `SaveBytesAsFile`: the returned error (`none` for nil) and the state of
the file system afterwards. -/
def SaveBytesAsFile (fs : FileSystem) (createFault : Option GoString)
    (writeFault : Option (Nat × GoString)) (path content : GoString) :
    Option GoString × FileSystem :=
  match osCreate fs createFault path with
  | .error err => (some err, fs)
  | .ok created =>
    match fileWrite created writeFault path content with
    | (some err, after) => (some err, after)
    | (none, after) => (none, after)

/-- The function `SaveStringAsFile`: as `SaveBytesAsFile`, with `WriteString`. -/
def SaveStringAsFile (fs : FileSystem) (createFault : Option GoString)
    (writeFault : Option (Nat × GoString)) (path content : GoString) :
    Option GoString × FileSystem :=
  match osCreate fs createFault path with
  | .error err => (some err, fs)
  | .ok created =>
    match fileWrite created writeFault path content with
    | (some err, after) => (some err, after)
    | (none, after) => (none, after)

/-- The outcome of Go `os.Stat`: the file information (here whether the path is a
directory), the error for which `os.IsNotExist` holds, or another error. -/
inductive StatResult where
  | info (isDir : Bool)
  | notExist
  | failure (err : GoString)
  deriving DecidableEq

/-- Go `os.Stat` on the explicit state; `fault` is an error other than "does not exist"
that the state does not determine. -/
def osStat (fs : FileSystem) (fault : Option GoString) (path : GoString) : StatResult :=
  match fault with
  | some err => .failure err
  | none =>
    match fs.lookup path with
    | some Node.dir => .info true
    | some (Node.file _) => .info false
    | none => .notExist

/-- The function `EnsureDirExist`: the returned error (`none` for nil) and the state of
the file system afterwards. `mkdirAll` is `os.MkdirAll(path, 0755)` as a function of the
state, giving its error and the state it leaves. -/
def EnsureDirExist (mkdirAll : FileSystem → GoString → Option GoString × FileSystem)
    (statFault : Option GoString) (fs : FileSystem) (path : GoString) :
    Option GoString × FileSystem :=
  match osStat fs statFault path with
  | .info _ => (none, fs)
  | .notExist =>
    match mkdirAll fs path with
    | (some err, after) => (some err, after)
    | (none, after) => (none, after)
  | .failure err => (some err, fs)

/-! ## Theorems: label matching -/

/-- The loop of `HasLabels` returns true exactly when every visited entry of the filter
agrees with the zero-defaulted lookup in the instance's labels. -/
theorem hasLabelsLoop_eq_true (own : GoMap) (es : List (Sigma fun _ : GoString => GoString)) :
    hasLabelsLoop own es = true ↔ ∀ e ∈ es, own.index e.1 = e.2 := by
  induction es with
  | nil => simp [hasLabelsLoop]
  | cons e rest ih =>
    obtain ⟨k, v⟩ := e
    by_cases h : own.index k = v
    · simp [hasLabelsLoop, h, ih]
    · simp [hasLabelsLoop, h]

/-- What `HasLabels` computes: every key of the filter, looked up in the instance's labels
with the zero value `""` for a missing key, gives the filter's value. -/
theorem HasLabels_eq_true (i : Instance) (filter : GoMap) :
    i.HasLabels filter = true ↔
      ∀ k v, filter.lookup k = some v → i.Labels.index k = v := by
  unfold Instance.HasLabels
  rw [hasLabelsLoop_eq_true]
  constructor
  · intro h k v hkv
    have hmem : (⟨k, v⟩ : Sigma fun _ : GoString => GoString) ∈ filter.entries :=
      AList.mem_lookup_iff.mp (by simp [hkv])
    exact h _ hmem
  · intro h e he
    obtain ⟨k, v⟩ := e
    have hl : v ∈ filter.lookup k := AList.mem_lookup_iff.mpr he
    exact h k v (by simpa using hl)

/-- Two label maps that agree on every key of the filter give the same `HasLabels` result. -/
theorem HasLabels_congr (i j : Instance) (filter : GoMap)
    (h : ∀ k, k ∈ filter → j.Labels.lookup k = i.Labels.lookup k) :
    j.HasLabels filter = i.HasLabels filter := by
  rw [Bool.eq_iff_iff, HasLabels_eq_true, HasLabels_eq_true]
  have key : ∀ k v, filter.lookup k = some v → j.Labels.index k = i.Labels.index k := by
    intro k v hkv
    have hk : k ∈ filter := by
      rw [← AList.lookup_isSome, hkv]; rfl
    simp [GoMap.index, h k hk]
  constructor
  · intro hj k v hkv
    rw [← key k v hkv]; exact hj k v hkv
  · intro hi k v hkv
    rw [key k v hkv]; exact hi k v hkv

/-- C1 (the code at the failing input): for the filter `{"zone": ""}` and an instance whose
labels are `{"mysql": "slave"}`, the key `zone` is absent from the instance's labels and
`HasLabels` returns true, because the lookup of the missing key yields `""`. -/
theorem HasLabels_absent_key_empty_value :
    (str "zone") ∉ (AList.singleton (str "mysql") (str "slave") : GoMap) ∧
    Instance.HasLabels ⟨none, AList.singleton (str "mysql") (str "slave")⟩
      (AList.singleton (str "zone") (str "")) = true := by
  decide

/-- C2: a key `k` that is not a key of the filter does not influence `HasLabels`: setting
`k` to any value in the instance's labels, or deleting `k` from them, leaves the result
unchanged, and so does any change of the labels that keeps the lookups at the filter's
keys. -/
theorem HasLabels_ignores_other_keys (i : Instance) (filter : GoMap) (k v : GoString)
    (hk : k ∉ filter) :
    Instance.HasLabels { i with Labels := i.Labels.insert k v } filter = i.HasLabels filter ∧
    Instance.HasLabels { i with Labels := i.Labels.erase k } filter = i.HasLabels filter ∧
    ∀ j : Instance, (∀ a, a ∈ filter → j.Labels.lookup a = i.Labels.lookup a) →
      j.HasLabels filter = i.HasLabels filter := by
  refine ⟨?_, ?_, fun j hj => HasLabels_congr i j filter hj⟩
  · apply HasLabels_congr
    intro a ha
    have hne : a ≠ k := fun h => hk (h ▸ ha)
    simp [AList.lookup_insert_ne hne]
  · apply HasLabels_congr
    intro a ha
    have hne : a ≠ k := fun h => hk (h ▸ ha)
    simp [AList.lookup_erase_ne hne]

/-- The filter `{mysql: slave}` matches the labels `{mysql: slave, zone: us}` and still
matches once `zone` is removed. -/
theorem HasLabels_ignores_other_keys_witness :
    (str "zone") ∉ (AList.singleton (str "mysql") (str "slave") : GoMap) ∧
    Instance.HasLabels ⟨none, (AList.singleton (str "mysql") (str "slave")).insert
        (str "zone") (str "us")⟩ (AList.singleton (str "mysql") (str "slave")) = true ∧
    Instance.HasLabels ⟨none, ((AList.singleton (str "mysql") (str "slave")).insert
        (str "zone") (str "us")).erase (str "zone")⟩
      (AList.singleton (str "mysql") (str "slave")) = true := by
  have h := HasLabels_ignores_other_keys ⟨none, AList.singleton (str "mysql") (str "slave")⟩
    (AList.singleton (str "mysql") (str "slave")) (str "zone") (str "us") (by decide)
  refine ⟨by decide, ?_, by decide⟩
  rw [h.1]
  decide

/-- C3: with an empty (or nil) filter `HasLabels` returns true for every instance, whatever
its labels, the empty label map included. -/
theorem HasLabels_empty_filter (i : Instance) : i.HasLabels ∅ = true := rfl

/-! ## Theorems: cache index lookup -/

/-- The lookup returns nil exactly when no entry has the requested path. -/
theorem GetCacheByConfigPath_eq_none (index : CacheIndex) (path : GoString) :
    index.GetCacheByConfigPath path = none ↔ ∀ c ∈ index, c.ConfigPath ≠ path := by
  induction index with
  | nil => simp [CacheIndex.GetCacheByConfigPath]
  | cons c rest ih =>
    by_cases h : c.ConfigPath = path
    · simp [CacheIndex.GetCacheByConfigPath, h]
    · simp [CacheIndex.GetCacheByConfigPath, h, ih]

/-- The lookup returns an entry exactly when that entry sits at the least position whose
`ConfigPath` is the requested path. -/
theorem GetCacheByConfigPath_eq_some (index : CacheIndex) (path : GoString) (c : Cache) :
    index.GetCacheByConfigPath path = some c ↔
      ∃ n : Nat, index[n]? = some c ∧ c.ConfigPath = path ∧
        ∀ (m : Nat) (d : Cache), m < n → index[m]? = some d → d.ConfigPath ≠ path := by
  induction index with
  | nil => simp [CacheIndex.GetCacheByConfigPath]
  | cons x rest ih =>
    by_cases h : x.ConfigPath = path
    · simp only [CacheIndex.GetCacheByConfigPath, h, if_true, Option.some.injEq]
      constructor
      · rintro rfl
        exact ⟨0, by simp, h, fun m d hm => absurd hm (Nat.not_lt_zero m)⟩
      · rintro ⟨n, hn, _, hmin⟩
        cases n with
        | zero => simpa using hn
        | succ n => exact absurd h (hmin 0 x (Nat.succ_pos n) (by simp))
    · simp only [CacheIndex.GetCacheByConfigPath, h, if_false, ih]
      constructor
      · rintro ⟨n, hn, hc, hmin⟩
        refine ⟨n + 1, by simpa using hn, hc, ?_⟩
        intro m d hm hd
        cases m with
        | zero =>
          have hx : x = d := by simpa using hd
          exact hx ▸ h
        | succ m => exact hmin m d (Nat.lt_of_succ_lt_succ hm) (by simpa using hd)
      · rintro ⟨n, hn, hc, hmin⟩
        cases n with
        | zero =>
          have hx : x = c := by simpa using hn
          exact absurd hc (hx ▸ h)
        | succ n =>
          refine ⟨n, by simpa using hn, hc, ?_⟩
          intro m d hm hd
          exact hmin (m + 1) d (Nat.succ_lt_succ hm) (by simpa using hd)

/-- C4: `GetCacheByConfigPath` returns the entry at the smallest position whose
`ConfigPath` equals the path, returns nil exactly when no entry of the index has that
`ConfigPath`, and never returns an entry with another `ConfigPath`. The index is an
argument that the function only reads: its sole output is the returned entry. -/
theorem GetCacheByConfigPath_spec (index : CacheIndex) (path : GoString) :
    (∀ c, index.GetCacheByConfigPath path = some c ↔
      ∃ n : Nat, index[n]? = some c ∧ c.ConfigPath = path ∧
        ∀ (m : Nat) (d : Cache), m < n → index[m]? = some d → d.ConfigPath ≠ path) ∧
    (index.GetCacheByConfigPath path = none ↔ ∀ c ∈ index, c.ConfigPath ≠ path) ∧
    (∀ c, index.GetCacheByConfigPath path = some c → c ∈ index ∧ c.ConfigPath = path) := by
  refine ⟨GetCacheByConfigPath_eq_some index path, GetCacheByConfigPath_eq_none index path, ?_⟩
  intro c hc
  obtain ⟨n, hn, hp, _⟩ := (GetCacheByConfigPath_eq_some index path c).mp hc
  exact ⟨List.getElem?_mem hn, hp⟩

/-- In an index with entries for `/a.yaml`, `/b.yaml` and again `/b.yaml`, the lookup of
`/b.yaml` returns the first of the two, an entry of the index with that `ConfigPath`. -/
theorem GetCacheByConfigPath_spec_witness :
    (⟨str "/b.yaml", str "/c/1.yaml", 2, []⟩ : Cache) ∈
      ([⟨str "/a.yaml", str "/c/0.yaml", 1, []⟩, ⟨str "/b.yaml", str "/c/1.yaml", 2, []⟩,
        ⟨str "/b.yaml", str "/c/2.yaml", 3, []⟩] : CacheIndex) ∧
    (⟨str "/b.yaml", str "/c/1.yaml", 2, []⟩ : Cache).ConfigPath = str "/b.yaml" :=
  (GetCacheByConfigPath_spec
    [⟨str "/a.yaml", str "/c/0.yaml", 1, []⟩, ⟨str "/b.yaml", str "/c/1.yaml", 2, []⟩,
      ⟨str "/b.yaml", str "/c/2.yaml", 3, []⟩] (str "/b.yaml")).2.2
    ⟨str "/b.yaml", str "/c/1.yaml", 2, []⟩ (by decide)

/-! ## Theorems: artifact naming -/

/-- The slice `s[:len(s)-5]` succeeds exactly on strings of at least five bytes and then
drops the last five bytes. -/
theorem sliceTo_length_sub_five (s : GoString) :
    sliceTo s ((s.length : Int) - 5) = if 5 ≤ s.length then some (s.take (s.length - 5)) else none := by
  unfold sliceTo
  by_cases h : 5 ≤ s.length
  · have h1 : (0 : Int) ≤ (s.length : Int) - 5 ∧ (s.length : Int) - 5 ≤ (s.length : Int) := by omega
    have h2 : ((s.length : Int) - 5).toNat = s.length - 5 := by omega
    rw [if_pos h1, if_pos h, h2]
  · have h1 : ¬ ((0 : Int) ≤ (s.length : Int) - 5 ∧ (s.length : Int) - 5 ≤ (s.length : Int)) := by
      omega
    rw [if_neg h1, if_neg h]

/-- The name generator in closed form: it fails when the base name is shorter than five
bytes and otherwise gives `cache_`, the base name minus its last five bytes, `_`, the
token and `.yaml`. -/
theorem GenerateCacheFileNameByConfig_eq (configPath token : GoString) :
    GenerateCacheFileNameByConfig configPath token =
      if 5 ≤ (filepathBase configPath).length then
        some (str "cache_" ++ (filepathBase configPath).take ((filepathBase configPath).length - 5)
          ++ str "_" ++ token ++ str ".yaml")
      else none := by
  unfold GenerateCacheFileNameByConfig
  simp only [sliceTo_length_sub_five]
  by_cases h : 5 ≤ (filepathBase configPath).length
  · simp only [if_pos h]
    have hp : cacheFilePrefix ++ str "_" = str "cache_" := by decide
    rw [hp]
  · simp only [if_neg h]

/-- After the last occurrence of a byte in a list, looking from the right. -/
theorem cons_rtakeWhile_suffix (x : UInt8) (l : GoString) (h : x ∈ l) :
    (x :: l.rtakeWhile (· != x)) <:+ l := by
  induction l using List.reverseRecOn with
  | nil => simp at h
  | append_singleton l y ih =>
    by_cases hy : y = x
    · subst hy
      rw [List.rtakeWhile_concat_neg (fun z => z != y) l y (by simp)]
      exact List.suffix_append l [y]
    · have hpy : (y != x) = true := by simpa using hy
      rw [List.rtakeWhile_concat_pos (fun z => z != x) l y hpy]
      have hx : x ∈ l := by
        rcases List.mem_append.mp h with h1 | h1
        · exact h1
        · exact absurd (List.mem_singleton.mp h1).symm hy
      obtain ⟨t, ht⟩ := ih hx
      refine ⟨t, ?_⟩
      have hassoc : t ++ x :: (l.rtakeWhile (fun z => z != x) ++ [y])
          = (t ++ x :: l.rtakeWhile (fun z => z != x)) ++ [y] := by simp
      rw [hassoc, ht]

/-- The extension reported by `filepath.Ext` is a suffix of its argument. -/
theorem filepathExt_suffix (name : GoString) : filepathExt name <:+ name := by
  unfold filepathExt
  by_cases h : dot ∈ name.rtakeWhile (· != slash)
  · simp only [h, if_true]
    exact (cons_rtakeWhile_suffix dot _ h).trans (List.rtakeWhile_suffix _ _)
  · simp only [h, if_false]
    exact List.nil_suffix

/-- Removing the extension and putting it back gives the name. -/
theorem trimExt_append_filepathExt (name : GoString) :
    trimExt name ++ filepathExt name = name := by
  obtain ⟨t, ht⟩ := filepathExt_suffix name
  unfold trimExt
  generalize filepathExt name = e at ht ⊢
  subst ht
  simp

/-- C5 (the code at the failing input): for the configuration path
`/Users/tokienohara/Documents/Project/gopssh/config/inventory.yaml` and the token `j9sxt`
the function returns `cache_inventory_j9sxt.yaml`, with the token after the base name,
and not `cache_j9sxt_inventory.yaml`. -/
theorem GenerateCacheFileNameByConfig_token_after_base :
    GenerateCacheFileNameByConfig
        (str "/Users/tokienohara/Documents/Project/gopssh/config/inventory.yaml") (str "j9sxt")
      = some (str "cache_inventory_j9sxt.yaml") ∧
    GenerateCacheFileNameByConfig
        (str "/Users/tokienohara/Documents/Project/gopssh/config/inventory.yaml") (str "j9sxt")
      ≠ some (str "cache_" ++ str "j9sxt" ++ str "_" ++ str "inventory" ++ str ".yaml") := by
  decide

/-- C6: when the extension of the configuration path's base name is five bytes long
(the dot included), the base-name component of the generated name is the base name with
exactly that extension removed: the component followed by the extension is the whole base
name, and the generated name is `cache_`, that component, `_`, the token and `.yaml`. -/
theorem GenerateCacheFileNameByConfig_strips_five_byte_ext (configPath token : GoString)
    (hext : (filepathExt (filepathBase configPath)).length = 5) :
    trimExt (filepathBase configPath) ++ filepathExt (filepathBase configPath)
      = filepathBase configPath ∧
    GenerateCacheFileNameByConfig configPath token =
      some (str "cache_" ++ trimExt (filepathBase configPath) ++ str "_" ++ token
        ++ str ".yaml") := by
  refine ⟨trimExt_append_filepathExt _, ?_⟩
  have hle : 5 ≤ (filepathBase configPath).length := by
    have := (filepathExt_suffix (filepathBase configPath)).length_le
    omega
  rw [GenerateCacheFileNameByConfig_eq, if_pos hle]
  unfold trimExt
  rw [hext]

/-- The path `/etc/gopssh/hosts.json` has the five-byte extension `.json` and yields the
name `cache_hosts_j9sxt.yaml`. -/
theorem GenerateCacheFileNameByConfig_strips_five_byte_ext_witness :
    (filepathExt (filepathBase (str "/etc/gopssh/hosts.json"))).length = 5 ∧
    trimExt (filepathBase (str "/etc/gopssh/hosts.json")) = str "hosts" ∧
    GenerateCacheFileNameByConfig (str "/etc/gopssh/hosts.json") (str "j9sxt") =
      some (str "cache_" ++ trimExt (filepathBase (str "/etc/gopssh/hosts.json")) ++ str "_"
        ++ str "j9sxt" ++ str ".yaml") :=
  ⟨by decide, by decide,
    (GenerateCacheFileNameByConfig_strips_five_byte_ext (str "/etc/gopssh/hosts.json")
      (str "j9sxt") (by decide)).2⟩

/-- C7: every name that `GenerateCacheFileNameByConfig` returns starts with `cache_` and
ends with `.yaml`, whatever the configuration path and the token are. -/
theorem GenerateCacheFileNameByConfig_affixes (configPath token name : GoString)
    (h : GenerateCacheFileNameByConfig configPath token = some name) :
    str "cache_" <+: name ∧ str ".yaml" <:+ name := by
  rw [GenerateCacheFileNameByConfig_eq] at h
  by_cases hle : 5 ≤ (filepathBase configPath).length
  · rw [if_pos hle] at h
    have hn := Option.some.inj h
    subst hn
    constructor
    · simp only [List.append_assoc]
      exact List.prefix_append _ _
    · exact List.suffix_append _ _
  · rw [if_neg hle] at h
    exact absurd h (by simp)

/-- A `.json` configuration yields a name that starts with `cache_` and ends with
`.yaml`. -/
theorem GenerateCacheFileNameByConfig_affixes_witness :
    GenerateCacheFileNameByConfig (str "/etc/gopssh/hosts.json") (str "j9sxt")
      = some (str "cache_hosts_j9sxt.yaml") ∧
    str "cache_" <+: str "cache_hosts_j9sxt.yaml" ∧
    str ".yaml" <:+ str "cache_hosts_j9sxt.yaml" :=
  ⟨by decide,
    GenerateCacheFileNameByConfig_affixes (str "/etc/gopssh/hosts.json") (str "j9sxt")
      (str "cache_hosts_j9sxt.yaml") (by decide)⟩

/-- C8: with tokens of length 5 as explicit inputs and both generations succeeding, the
two generated names are equal exactly when the tokens are equal and the stripped base
names are equal; in particular one path with two different tokens gives two different
names. -/
theorem GenerateCacheFileNameByConfig_eq_iff (p1 p2 r1 r2 : GoString)
    (hr1 : r1.length = randStringLength) (hr2 : r2.length = randStringLength)
    (hs1 : (GenerateCacheFileNameByConfig p1 r1).isSome = true)
    (hs2 : (GenerateCacheFileNameByConfig p2 r2).isSome = true) :
    (GenerateCacheFileNameByConfig p1 r1 = GenerateCacheFileNameByConfig p2 r2 ↔
      r1 = r2 ∧
        sliceTo (filepathBase p1) (((filepathBase p1).length : Int) - 5)
          = sliceTo (filepathBase p2) (((filepathBase p2).length : Int) - 5)) ∧
    (p1 = p2 → r1 ≠ r2 →
      GenerateCacheFileNameByConfig p1 r1 ≠ GenerateCacheFileNameByConfig p2 r2) := by
  have key : GenerateCacheFileNameByConfig p1 r1 = GenerateCacheFileNameByConfig p2 r2 ↔
      r1 = r2 ∧
        sliceTo (filepathBase p1) (((filepathBase p1).length : Int) - 5)
          = sliceTo (filepathBase p2) (((filepathBase p2).length : Int) - 5) := by
    rw [GenerateCacheFileNameByConfig_eq] at hs1 hs2
    rw [GenerateCacheFileNameByConfig_eq, GenerateCacheFileNameByConfig_eq,
      sliceTo_length_sub_five, sliceTo_length_sub_five]
    by_cases h1 : 5 ≤ (filepathBase p1).length
    · by_cases h2 : 5 ≤ (filepathBase p2).length
      · simp only [if_pos h1, if_pos h2, Option.some.injEq, List.append_assoc]
        constructor
        · intro h
          have h3 := List.append_cancel_left h
          have h4 := List.append_inj' h3 (by simp [hr1, hr2])
          have h5 := List.append_cancel_left h4.2
          exact ⟨List.append_cancel_right h5, h4.1⟩
        · rintro ⟨rfl, hst⟩
          rw [hst]
      · rw [if_neg h2] at hs2
        exact absurd hs2 (by simp)
    · rw [if_neg h1] at hs1
      exact absurd hs1 (by simp)
  refine ⟨key, ?_⟩
  intro _ hne heq
  exact hne (key.mp heq).1

/-- One configuration path with the two tokens `j9sxt` and `k2m4p` gives two different
names. -/
theorem GenerateCacheFileNameByConfig_eq_iff_witness :
    GenerateCacheFileNameByConfig (str "/conf/inventory.yaml") (str "j9sxt") ≠
      GenerateCacheFileNameByConfig (str "/conf/inventory.yaml") (str "k2m4p") :=
  (GenerateCacheFileNameByConfig_eq_iff (str "/conf/inventory.yaml")
    (str "/conf/inventory.yaml") (str "j9sxt") (str "k2m4p") (by decide) (by decide)
    (by decide) (by decide)).2 rfl (by decide)

/-! ## Theorems: the cache decision -/

/-- Every step sequence of the refresh tail contains the parse of the configuration. -/
theorem refresh_parses (x : Collaborators) (index : CacheIndex) (configPath : GoString)
    (store : CacheIndex → Cache → CacheIndex) (before : List Effect) :
    (refresh x index configPath store before).result = x.parse configPath ∧
    Effect.parseConfig configPath ∈ (refresh x index configPath store before).effects := by
  unfold refresh
  cases h : x.parse configPath <;> simp

/-- The refresh tail reads no artifact beyond those already read before it. -/
theorem refresh_artifactRead (x : Collaborators) (index : CacheIndex) (configPath : GoString)
    (store : CacheIndex → Cache → CacheIndex) (before : List Effect) (path : GoString) :
    Effect.artifactRead path ∈ (refresh x index configPath store before).effects ↔
      Effect.artifactRead path ∈ before := by
  unfold refresh
  cases h : x.parse configPath <;> simp

/-- C9 (counterexample): caching is enabled, the index has an entry for `/inv.yaml` and
the entry's modification time 7 is the file's current one, but the artifact does not
deserialize: the cached artifact is not used. The configuration is parsed afresh, the
parser's instances are returned, and the entry is rewritten with a new artifact path. -/
theorem Resolve_corrupt_artifact_parses :
    CacheIndex.GetCacheByConfigPath
        [⟨str "/inv.yaml", str "/c/cache_inv_k2m4p.yaml", 7, []⟩] (str "/inv.yaml")
      = some ⟨str "/inv.yaml", str "/c/cache_inv_k2m4p.yaml", 7, []⟩ ∧
    (Resolve ⟨fun _ => 7, fun _ => some [⟨none, ∅⟩], fun _ => none,
        fun _ => str "/c/cache_inv_j9sxt.yaml"⟩
        [⟨str "/inv.yaml", str "/c/cache_inv_k2m4p.yaml", 7, []⟩] (str "/inv.yaml") true)
      = ⟨some [⟨none, ∅⟩],
          [⟨str "/inv.yaml", str "/c/cache_inv_j9sxt.yaml", 7, [⟨none, ∅⟩]⟩],
          [Effect.indexRead, Effect.artifactRead (str "/c/cache_inv_k2m4p.yaml"),
            Effect.parseConfig (str "/inv.yaml"),
            Effect.artifactWrite (str "/c/cache_inv_j9sxt.yaml"), Effect.indexWrite]⟩ :=
  ⟨by decide, rfl⟩

/-- C9 (amended): in the Decision Engine of §4.3 the cache decision is a function of four
facts: the use-cache flag, whether the index has an entry for the configuration path,
whether the entry's stored modification time equals the file's current one, and whether
the entry's artifact deserializes. The artifact is read exactly when the first three
hold. The cached instances are used, that is returned without parsing and with the index
left as it was, exactly when all four hold. In every other case (caching disabled, entry
not found, modification time changed, artifact unreadable) the configuration is parsed
afresh and the parser's result is returned. With caching disabled the index is neither
read nor written and is left as it was. -/
theorem Resolve_decision_four_facts (x : Collaborators) (index : CacheIndex)
    (configPath : GoString) (useCache : Bool) :
    ((∃ path, Effect.artifactRead path ∈ (Resolve x index configPath useCache).effects) ↔
      useCache = true ∧ ∃ cache, index.GetCacheByConfigPath configPath = some cache ∧
        cache.ModTime = x.modTime configPath) ∧
    (Effect.parseConfig configPath ∉ (Resolve x index configPath useCache).effects ↔
      useCache = true ∧ ∃ cache instances,
        index.GetCacheByConfigPath configPath = some cache ∧
        cache.ModTime = x.modTime configPath ∧
        x.load cache.InstancesPath = some instances) ∧
    (∀ cache instances, useCache = true →
      index.GetCacheByConfigPath configPath = some cache →
      cache.ModTime = x.modTime configPath → x.load cache.InstancesPath = some instances →
      (Resolve x index configPath useCache).result = some instances ∧
      (Resolve x index configPath useCache).index = index ∧
      Effect.indexWrite ∉ (Resolve x index configPath useCache).effects) ∧
    (¬ (useCache = true ∧ ∃ cache instances,
        index.GetCacheByConfigPath configPath = some cache ∧
        cache.ModTime = x.modTime configPath ∧
        x.load cache.InstancesPath = some instances) →
      (Resolve x index configPath useCache).result = x.parse configPath ∧
      Effect.parseConfig configPath ∈ (Resolve x index configPath useCache).effects) ∧
    (useCache = false →
      Effect.indexRead ∉ (Resolve x index configPath useCache).effects ∧
      Effect.indexWrite ∉ (Resolve x index configPath useCache).effects ∧
      (Resolve x index configPath useCache).index = index) := by
  cases useCache with
  | false => simp [Resolve]
  | true =>
    cases hfind : index.GetCacheByConfigPath configPath with
    | none =>
      have hr : Resolve x index configPath true =
          refresh x index configPath (fun idx entry => idx ++ [entry]) [Effect.indexRead] := by
        simp [Resolve, hfind]
      rw [hr]
      refine ⟨?_, ?_, ?_, ?_, ?_⟩
      · simp [refresh_artifactRead]
      · simp [(refresh_parses x index configPath _ _).2]
      · intro cache instances _ hc
        exact absurd hc (by simp)
      · intro _
        exact refresh_parses x index configPath _ _
      · intro h
        exact absurd h (by simp)
    | some cache =>
      by_cases hmod : cache.ModTime = x.modTime configPath
      · cases hload : x.load cache.InstancesPath with
        | none =>
          have hr : Resolve x index configPath true =
              refresh x index configPath updateEntry
                [Effect.indexRead, Effect.artifactRead cache.InstancesPath] := by
            simp [Resolve, hfind, hmod, hload]
          rw [hr]
          refine ⟨?_, ?_, ?_, ?_, ?_⟩
          · simp [refresh_artifactRead, hmod]
          · simp [(refresh_parses x index configPath _ _).2, hload]
          · intro c instances _ hc _ hl
            have hcc : cache = c := Option.some.inj hc
            subst hcc
            rw [hload] at hl
            exact absurd hl (by simp)
          · intro _
            exact refresh_parses x index configPath _ _
          · intro h
            exact absurd h (by simp)
        | some instances =>
          have hr : Resolve x index configPath true =
              ⟨some instances, index,
                [Effect.indexRead, Effect.artifactRead cache.InstancesPath]⟩ := by
            simp [Resolve, hfind, hmod, hload]
          rw [hr]
          refine ⟨?_, ?_, ?_, ?_, ?_⟩
          · simp [hmod]
          · simp [hmod, hload]
          · intro c instances2 _ hc _ hl
            have hcc : cache = c := Option.some.inj hc
            subst hcc
            rw [hload] at hl
            have hii : instances = instances2 := Option.some.inj hl
            subst hii
            simp
          · intro hno
            exact absurd ⟨rfl, cache, instances, rfl, hmod, hload⟩ hno
          · intro h
            exact absurd h (by simp)
      · have hr : Resolve x index configPath true =
            refresh x index configPath updateEntry [Effect.indexRead] := by
          simp [Resolve, hfind, hmod]
        rw [hr]
        refine ⟨?_, ?_, ?_, ?_, ?_⟩
        · simp [refresh_artifactRead, hmod]
        · simp [(refresh_parses x index configPath _ _).2, hmod]
        · intro c instances _ hc hm
          have hcc : cache = c := Option.some.inj hc
          subst hcc
          exact absurd hm hmod
        · intro _
          exact refresh_parses x index configPath _ _
        · intro h
          exact absurd h (by simp)

/-- Caching is enabled, the index has an up-to-date entry for `/inv.yaml` and its
artifact deserializes: the cached instances are returned, the index is left as it was and
is not written. -/
theorem Resolve_decision_four_facts_witness :
    (Resolve ⟨fun _ => 7, fun _ => some [], fun _ => some [⟨none, ∅⟩],
        fun _ => str "/c/cache_inv_j9sxt.yaml"⟩
        [⟨str "/inv.yaml", str "/c/cache_inv_k2m4p.yaml", 7, []⟩] (str "/inv.yaml")
        true).result = some [⟨none, ∅⟩] ∧
    (Resolve ⟨fun _ => 7, fun _ => some [], fun _ => some [⟨none, ∅⟩],
        fun _ => str "/c/cache_inv_j9sxt.yaml"⟩
        [⟨str "/inv.yaml", str "/c/cache_inv_k2m4p.yaml", 7, []⟩] (str "/inv.yaml")
        true).index = [⟨str "/inv.yaml", str "/c/cache_inv_k2m4p.yaml", 7, []⟩] ∧
    Effect.indexWrite ∉ (Resolve ⟨fun _ => 7, fun _ => some [], fun _ => some [⟨none, ∅⟩],
        fun _ => str "/c/cache_inv_j9sxt.yaml"⟩
        [⟨str "/inv.yaml", str "/c/cache_inv_k2m4p.yaml", 7, []⟩] (str "/inv.yaml")
        true).effects :=
  (Resolve_decision_four_facts ⟨fun _ => 7, fun _ => some [], fun _ => some [⟨none, ∅⟩],
      fun _ => str "/c/cache_inv_j9sxt.yaml"⟩
    [⟨str "/inv.yaml", str "/c/cache_inv_k2m4p.yaml", 7, []⟩] (str "/inv.yaml")
    true).2.2.1 ⟨str "/inv.yaml", str "/c/cache_inv_k2m4p.yaml", 7, []⟩ [⟨none, ∅⟩]
    rfl (by decide) rfl rfl

/-! ## Theorems: presentation -/

/-- C10: for an instance with a non-nil SSH descriptor, `StringDecodePassword` returns a
non-nil error exactly when decoding the stored password fails; the error is the decoder's
and comes with the empty string; when decoding succeeds the error is nil and the returned
line contains the decoded password, between `, Password: ` and `, Labels: `. -/
theorem StringDecodePassword_error_iff (decode : GoString → Except GoString GoString)
    (escape : GoString → GoString) (i : Instance) (s : SSH) (hs : i.SSH = some s) :
    ((∃ line err, i.StringDecodePassword decode escape = some (line, some err)) ↔
      ∃ err, decode s.Password = Except.error err) ∧
    (∀ line err, i.StringDecodePassword decode escape = some (line, some err) →
      line = [] ∧ decode s.Password = Except.error err) ∧
    (∀ decPwd, decode s.Password = Except.ok decPwd →
      ∃ line, i.StringDecodePassword decode escape = some (line, none) ∧
        (str ", Password: " ++ decPwd ++ str ", Labels: ") <:+: line) := by
  cases hd : decode s.Password with
  | error e =>
    have hr : i.StringDecodePassword decode escape = some ([], some e) := by
      simp only [Instance.StringDecodePassword, hs, hd]
    rw [hr]
    refine ⟨⟨fun _ => ⟨e, rfl⟩, fun _ => ⟨[], e, rfl⟩⟩, ?_, ?_⟩
    · intro line err h
      have h2 := Prod.mk.inj (Option.some.inj h)
      exact ⟨h2.1.symm, by rw [Option.some.inj h2.2]⟩
    · intro decPwd h
      exact absurd h (by simp)
  | ok dec =>
    have hr : i.StringDecodePassword decode escape =
        some (str "Ip: " ++ s.Address.Ip ++ str ", Port: " ++ fmtInt s.Address.Port
          ++ str ", Username: " ++ s.Username ++ str ", Password: " ++ dec
          ++ str ", Labels: " ++ fmtSharpV escape (PrettyMap i.Labels), none) := by
      simp only [Instance.StringDecodePassword, hs, hd]
    rw [hr]
    refine ⟨⟨?_, ?_⟩, ?_, ?_⟩
    · rintro ⟨line, err, h⟩
      exact absurd (Prod.mk.inj (Option.some.inj h)).2 (by simp)
    · rintro ⟨err, h⟩
      exact absurd h (by simp)
    · intro line err h
      exact absurd (Prod.mk.inj (Option.some.inj h)).2 (by simp)
    · intro decPwd h
      have hdd : dec = decPwd := Except.ok.inj h
      subst hdd
      refine ⟨_, rfl, ?_⟩
      refine ⟨str "Ip: " ++ s.Address.Ip ++ str ", Port: " ++ fmtInt s.Address.Port
        ++ str ", Username: " ++ s.Username, fmtSharpV escape (PrettyMap i.Labels), ?_⟩
      simp only [List.append_assoc]

/-- The instance `root@10.0.0.1:22` with stored password `cGFzcw==`, a decoder that knows
this encoding of `pass`, and labels `{mysql: slave}`: the call returns a nil error and a
line containing `, Password: pass, Labels: `. -/
theorem StringDecodePassword_error_iff_witness :
    ∃ line, Instance.StringDecodePassword
        (fun p => if p = str "cGFzcw==" then Except.ok (str "pass")
          else Except.error (str "illegal base64 data"))
        id
        ⟨some ⟨⟨str "10.0.0.1", 22⟩, str "root", str "cGFzcw=="⟩,
          AList.singleton (str "mysql") (str "slave")⟩ = some (line, none) ∧
      (str ", Password: " ++ str "pass" ++ str ", Labels: ") <:+: line :=
  (StringDecodePassword_error_iff
    (fun p => if p = str "cGFzcw==" then Except.ok (str "pass")
      else Except.error (str "illegal base64 data"))
    id
    ⟨some ⟨⟨str "10.0.0.1", 22⟩, str "root", str "cGFzcw=="⟩,
      AList.singleton (str "mysql") (str "slave")⟩
    ⟨⟨str "10.0.0.1", 22⟩, str "root", str "cGFzcw=="⟩ rfl).2.2 (str "pass") rfl

/-! ## Theorems: lookup under reordering, filters without empty values, name generation -/

/-- In an index without two entries of the same `ConfigPath`, the lookup returns an entry
exactly when the entry belongs to the index and has the requested path. -/
theorem GetCacheByConfigPath_eq_some_of_nodup (index : CacheIndex) (path : GoString)
    (hnd : (index.map Cache.ConfigPath).Nodup) (c : Cache) :
    index.GetCacheByConfigPath path = some c ↔ c ∈ index ∧ c.ConfigPath = path := by
  induction index with
  | nil => simp [CacheIndex.GetCacheByConfigPath]
  | cons x rest ih =>
    rw [List.map_cons, List.nodup_cons] at hnd
    by_cases h : x.ConfigPath = path
    · simp only [CacheIndex.GetCacheByConfigPath, h, if_true, Option.some.injEq, List.mem_cons]
      constructor
      · rintro rfl
        exact ⟨Or.inl rfl, h⟩
      · rintro ⟨hc | hc, hp⟩
        · exact hc.symm
        · exact absurd (List.mem_map.mpr ⟨c, hc, hp.trans h.symm⟩) hnd.1
    · simp only [CacheIndex.GetCacheByConfigPath, h, if_false, ih hnd.2, List.mem_cons]
      constructor
      · rintro ⟨hc, hp⟩
        exact ⟨Or.inr hc, hp⟩
      · rintro ⟨hc | hc, hp⟩
        · exact absurd (hc ▸ hp) h
        · exact ⟨hc, hp⟩

/-- On indexes without nil pointers and without two entries of the same `ConfigPath`,
every permutation of the index gives the same lookup result, and an entry is returned
exactly when it is the entry of the index with the requested `ConfigPath`, of which there
is at most one. -/
theorem GetCacheByConfigPath_perm_entries (index reordered : CacheIndex) (path : GoString)
    (hnd : (index.map Cache.ConfigPath).Nodup) (hperm : index.Perm reordered) :
    reordered.GetCacheByConfigPath path = index.GetCacheByConfigPath path ∧
    (∀ c, index.GetCacheByConfigPath path = some c ↔ c ∈ index ∧ c.ConfigPath = path) ∧
    (∀ c d, c ∈ index → d ∈ index → c.ConfigPath = d.ConfigPath → c = d) := by
  have hnd2 : (reordered.map Cache.ConfigPath).Nodup :=
    ((hperm.map Cache.ConfigPath).nodup_iff).mp hnd
  refine ⟨?_, GetCacheByConfigPath_eq_some_of_nodup index path hnd, ?_⟩
  · apply Option.ext
    intro c
    rw [Option.mem_def, Option.mem_def, GetCacheByConfigPath_eq_some_of_nodup _ _ hnd2,
      GetCacheByConfigPath_eq_some_of_nodup _ _ hnd, hperm.mem_iff]
  · intro c d hc hd hcd
    exact List.inj_on_of_nodup_map hnd hc hd hcd

/-- On a slice without nil pointers the lookup never panics and is the lookup among the
entries. -/
theorem GetCacheByConfigPath_map_some (index : CacheIndex) (path : GoString) :
    CacheIndexPtr.GetCacheByConfigPath (index.map some) path
      = some (index.GetCacheByConfigPath path) := by
  induction index with
  | nil => rfl
  | cons c rest ih =>
    by_cases h : c.ConfigPath = path
    · simp [CacheIndexPtr.GetCacheByConfigPath, CacheIndex.GetCacheByConfigPath, h]
    · simp only [List.map_cons, CacheIndexPtr.GetCacheByConfigPath,
        CacheIndex.GetCacheByConfigPath, h, if_false]
      exact ih

/-- A slice without nil pointers is the list of its entries, each behind a pointer. -/
theorem map_some_filterMap_id (index : CacheIndexPtr) (hnn : ∀ e ∈ index, e ≠ none) :
    (index.filterMap id).map some = index := by
  induction index with
  | nil => rfl
  | cons e rest ih =>
    cases e with
    | none => exact absurd rfl (hnn none (by simp))
    | some c =>
      have := ih (fun e he => hnn e (by simp [he]))
      simpa using this

/-- C13 (counterexample): the index `[&a, nil]` and its permutation `[nil, &a]`, with `a`
the only entry and its `ConfigPath` being `/a.yaml`: the lookup of `/a.yaml` returns `a`
on the first and panics on the nil element on the second. -/
theorem GetCacheByConfigPath_nil_entry_order :
    List.Perm ([some ⟨str "/a.yaml", str "/c/0.yaml", 1, []⟩, none] : CacheIndexPtr)
      [none, some ⟨str "/a.yaml", str "/c/0.yaml", 1, []⟩] ∧
    ((([some ⟨str "/a.yaml", str "/c/0.yaml", 1, []⟩, none] : CacheIndexPtr).filterMap id).map
      Cache.ConfigPath).Nodup ∧
    CacheIndexPtr.GetCacheByConfigPath
        [some ⟨str "/a.yaml", str "/c/0.yaml", 1, []⟩, none] (str "/a.yaml")
      = some (some ⟨str "/a.yaml", str "/c/0.yaml", 1, []⟩) ∧
    CacheIndexPtr.GetCacheByConfigPath
        [none, some ⟨str "/a.yaml", str "/c/0.yaml", 1, []⟩] (str "/a.yaml")
      = none :=
  ⟨List.Perm.swap _ _ _, by decide, by decide, by decide⟩

/-- C13 (amended): for every cache index whose pointers are all non-nil and in which no
two entries share a `ConfigPath`, and every path, the lookup does not panic, every
permutation of the index gives the same result of `GetCacheByConfigPath`, and an entry is
returned exactly when it is the entry of the index with the requested `ConfigPath`, of
which there is at most one. -/
theorem GetCacheByConfigPath_perm_nonnil (index reordered : CacheIndexPtr) (path : GoString)
    (hnn : ∀ e ∈ index, e ≠ none)
    (hnd : ((index.filterMap id).map Cache.ConfigPath).Nodup)
    (hperm : index.Perm reordered) :
    CacheIndexPtr.GetCacheByConfigPath reordered path
      = CacheIndexPtr.GetCacheByConfigPath index path ∧
    CacheIndexPtr.GetCacheByConfigPath index path ≠ none ∧
    (∀ c, CacheIndexPtr.GetCacheByConfigPath index path = some (some c) ↔
      some c ∈ index ∧ c.ConfigPath = path) ∧
    (∀ c d, some c ∈ index → some d ∈ index → c.ConfigPath = d.ConfigPath → c = d) := by
  have hnn2 : ∀ e ∈ reordered, e ≠ none := fun e he => hnn e (hperm.mem_iff.mpr he)
  have hi := map_some_filterMap_id index hnn
  have hr := map_some_filterMap_id reordered hnn2
  have hp : (index.filterMap id).Perm (reordered.filterMap id) := hperm.filterMap id
  obtain ⟨h1, h2, h3⟩ := GetCacheByConfigPath_perm_entries (index.filterMap id)
    (reordered.filterMap id) path hnd hp
  have hmem : ∀ c, some c ∈ index ↔ c ∈ index.filterMap id := by
    intro c
    simp
  have hgi := GetCacheByConfigPath_map_some (index.filterMap id) path
  have hgr := GetCacheByConfigPath_map_some (reordered.filterMap id) path
  rw [hi] at hgi
  rw [hr] at hgr
  refine ⟨by rw [hgi, hgr, h1], by rw [hgi]; simp, ?_, ?_⟩
  · intro c
    rw [hgi, hmem, ← h2 c]
    simp
  · intro c d hc hd hcd
    exact h3 c d ((hmem c).mp hc) ((hmem d).mp hd) hcd

/-- The index `[&a, &b]` and its reversal `[&b, &a]` give the same lookup of `/b.yaml`. -/
theorem GetCacheByConfigPath_perm_nonnil_witness :
    CacheIndexPtr.GetCacheByConfigPath
        [some ⟨str "/b.yaml", str "/c/1.yaml", 2, []⟩, some ⟨str "/a.yaml", str "/c/0.yaml", 1, []⟩]
        (str "/b.yaml") =
      CacheIndexPtr.GetCacheByConfigPath
        [some ⟨str "/a.yaml", str "/c/0.yaml", 1, []⟩, some ⟨str "/b.yaml", str "/c/1.yaml", 2, []⟩]
        (str "/b.yaml") :=
  (GetCacheByConfigPath_perm_nonnil
    [some ⟨str "/a.yaml", str "/c/0.yaml", 1, []⟩, some ⟨str "/b.yaml", str "/c/1.yaml", 2, []⟩]
    [some ⟨str "/b.yaml", str "/c/1.yaml", 2, []⟩, some ⟨str "/a.yaml", str "/c/0.yaml", 1, []⟩]
    (str "/b.yaml") (by decide) (by decide) (List.Perm.swap _ _ _)).1

/-- C17: for a filter none of whose values is the empty string, `HasLabels` returns true
exactly when every key of the filter is present in the instance's labels with an equal
value. -/
theorem HasLabels_nonempty_values (i : Instance) (filter : GoMap)
    (hne : ∀ k v, filter.lookup k = some v → v ≠ []) :
    i.HasLabels filter = true ↔
      ∀ k v, filter.lookup k = some v → i.Labels.lookup k = some v := by
  rw [HasLabels_eq_true]
  constructor
  · intro h k v hkv
    have hidx := h k v hkv
    unfold GoMap.index at hidx
    cases hl : i.Labels.lookup k with
    | none =>
      rw [hl] at hidx
      exact absurd hidx.symm (hne k v hkv)
    | some w =>
      rw [hl] at hidx
      exact congrArg some hidx
  · intro h k v hkv
    unfold GoMap.index
    rw [h k v hkv]
    rfl

/-- The filter `{mysql: slave}` has no empty value; it does not match an instance whose
only label is `zone: us`, where the key `mysql` is absent. -/
theorem HasLabels_nonempty_values_witness :
    Instance.HasLabels ⟨none, AList.singleton (str "zone") (str "us")⟩
        (AList.singleton (str "mysql") (str "slave")) = true ↔
      ∀ k v, (AList.singleton (str "mysql") (str "slave") : GoMap).lookup k = some v →
        (AList.singleton (str "zone") (str "us") : GoMap).lookup k = some v :=
  HasLabels_nonempty_values ⟨none, AList.singleton (str "zone") (str "us")⟩
    (AList.singleton (str "mysql") (str "slave")) (by
      intro k v hkv
      have hmem : (⟨k, v⟩ : Sigma fun _ : GoString => GoString) ∈
          (AList.singleton (str "mysql") (str "slave") : GoMap).entries :=
        AList.mem_lookup_iff.mp (by simp [hkv])
      have hv : v = str "slave" := by
        simp [AList.singleton] at hmem
        exact hmem.2
      rw [hv]
      decide)

/-- C18: `GenerateCacheFileNameByConfig` returns a name exactly when the base name of the
configuration path has at least five bytes; otherwise the slice bound `len(cfgName)-5`
is negative and the call panics. This is the case for the empty path (base name `.`),
for the root path `/` and for `a.js`. -/
theorem GenerateCacheFileNameByConfig_isSome_iff (configPath token : GoString) :
    ((GenerateCacheFileNameByConfig configPath token).isSome = true ↔
      5 ≤ (filepathBase configPath).length) ∧
    (GenerateCacheFileNameByConfig configPath token = none ↔
      (filepathBase configPath).length < 5) ∧
    (filepathBase [] = str "." ∧ GenerateCacheFileNameByConfig [] token = none) ∧
    (filepathBase (str "/") = str "/" ∧
      GenerateCacheFileNameByConfig (str "/") token = none) ∧
    (filepathBase (str "a.js") = str "a.js" ∧
      GenerateCacheFileNameByConfig (str "a.js") token = none) := by
  have key : ∀ p : GoString, GenerateCacheFileNameByConfig p token = none ↔
      (filepathBase p).length < 5 := by
    intro p
    rw [GenerateCacheFileNameByConfig_eq]
    by_cases h : 5 ≤ (filepathBase p).length
    · simp only [if_pos h, reduceCtorEq, false_iff]
      omega
    · simp only [if_neg h, true_iff]
      omega
  refine ⟨?_, key configPath, ⟨by decide, (key []).mpr (by decide)⟩,
    ⟨by decide, (key (str "/")).mpr (by decide)⟩, ⟨by decide, (key (str "a.js")).mpr (by decide)⟩⟩
  rw [GenerateCacheFileNameByConfig_eq]
  by_cases h : 5 ≤ (filepathBase configPath).length
  · simp [if_pos h, h]
  · simp [if_neg h, h]

/-- C19: every name that `GenerateCacheFileNameByConfig` returns differs from the index
file name `cache_index.yaml`, for every token (those of five characters included): what
stands between `cache_` and `.yaml` contains a `_`, and `index` does not. -/
theorem GenerateCacheFileNameByConfig_ne_cacheIndexName (configPath token name : GoString)
    (h : GenerateCacheFileNameByConfig configPath token = some name) :
    name ≠ cacheIndexName := by
  rw [GenerateCacheFileNameByConfig_eq] at h
  by_cases hle : 5 ≤ (filepathBase configPath).length
  · rw [if_pos hle] at h
    have hn := Option.some.inj h
    intro heq
    rw [← hn] at heq
    have hidx : cacheIndexName = str "cache_" ++ (str "index" ++ str ".yaml") := by decide
    rw [hidx] at heq
    simp only [List.append_assoc] at heq
    have h1 := List.append_cancel_left heq
    have h2 : (filepathBase configPath).take ((filepathBase configPath).length - 5)
        ++ (str "_" ++ token) ++ str ".yaml" = str "index" ++ str ".yaml" := by
      simpa only [List.append_assoc] using h1
    have h3 := List.append_cancel_right h2
    have hmem : (95 : UInt8) ∈ str "index" := by
      rw [← h3]
      have hu : str "_" = [95] := by decide
      simp [hu]
    exact absurd hmem (by decide)
  · rw [if_neg hle] at h
    exact absurd h (by simp)

/-- The name generated for `/conf/inventory.yaml` with the token `index` is
`cache_inventory_index.yaml`, not the index file name. -/
theorem GenerateCacheFileNameByConfig_ne_cacheIndexName_witness :
    str "cache_inventory_index.yaml" ≠ cacheIndexName :=
  GenerateCacheFileNameByConfig_ne_cacheIndexName (str "/conf/inventory.yaml") (str "index")
    (str "cache_inventory_index.yaml") (by decide)

/-- C12 (counterexample): the number of bytes cut is not 4. On `/conf/hosts.yml`, whose
extension `.yml` has 4 bytes with the dot, the embedded component is `host` and not the
extension-less base name `hosts`; on `/conf/hosts.yaml`, whose extension has 5 bytes, the
embedded component is the extension-less base name `hosts`. -/
theorem strip_count_is_not_four :
    ((filepathExt (filepathBase (str "/conf/hosts.yml"))).length = 4 ∧
      trimExt (filepathBase (str "/conf/hosts.yml")) = str "hosts" ∧
      GenerateCacheFileNameByConfig (str "/conf/hosts.yml") (str "j9sxt")
        = some (str "cache_" ++ str "host" ++ str "_" ++ str "j9sxt" ++ str ".yaml")) ∧
    ((filepathExt (filepathBase (str "/conf/hosts.yaml"))).length = 5 ∧
      trimExt (filepathBase (str "/conf/hosts.yaml")) = str "hosts" ∧
      GenerateCacheFileNameByConfig (str "/conf/hosts.yaml") (str "j9sxt")
        = some (str "cache_" ++ str "hosts" ++ str "_" ++ str "j9sxt" ++ str ".yaml")) := by
  decide

/-- C12 (amended): the generator cuts a fixed number of trailing bytes from the base name,
and that number is 5 counting the dot: whenever the base name has at least five bytes the
generated name embeds the base name without its last five bytes, and this component is
the extension-less base name exactly when the extension is 5 bytes long, the dot
included. -/
theorem GenerateCacheFileNameByConfig_strip_count (configPath token : GoString)
    (h5 : 5 ≤ (filepathBase configPath).length) :
    GenerateCacheFileNameByConfig configPath token =
      some (str "cache_"
        ++ (filepathBase configPath).take ((filepathBase configPath).length - 5)
        ++ str "_" ++ token ++ str ".yaml") ∧
    ((filepathBase configPath).take ((filepathBase configPath).length - 5)
        = trimExt (filepathBase configPath) ↔
      (filepathExt (filepathBase configPath)).length = 5) := by
  refine ⟨by rw [GenerateCacheFileNameByConfig_eq, if_pos h5], ?_⟩
  have hle := (filepathExt_suffix (filepathBase configPath)).length_le
  unfold trimExt
  constructor
  · intro h
    have hlen := congrArg List.length h
    simp only [List.length_take] at hlen
    omega
  · intro h
    rw [h]

/-- The path `/conf/hosts.yml` (base name of 9 bytes, extension of 4): the embedded
component is the base name without its last five bytes and is not the extension-less base
name. -/
theorem GenerateCacheFileNameByConfig_strip_count_witness :
    GenerateCacheFileNameByConfig (str "/conf/hosts.yml") (str "j9sxt") =
      some (str "cache_"
        ++ (filepathBase (str "/conf/hosts.yml")).take
          ((filepathBase (str "/conf/hosts.yml")).length - 5)
        ++ str "_" ++ str "j9sxt" ++ str ".yaml") ∧
    ((filepathBase (str "/conf/hosts.yml")).take
          ((filepathBase (str "/conf/hosts.yml")).length - 5)
        = trimExt (filepathBase (str "/conf/hosts.yml")) ↔
      (filepathExt (filepathBase (str "/conf/hosts.yml"))).length = 5) :=
  GenerateCacheFileNameByConfig_strip_count (str "/conf/hosts.yml") (str "j9sxt") (by decide)

/-! ## Theorems: rendering of labels -/

/-- The loop of `PrettyMap` appends the rendered entries to the initial output. -/
theorem foldl_append_eq_flatten {σ : Type} (f : σ → GoString) (es : List σ) (init : GoString) :
    es.foldl (fun acc e => acc ++ f e) init = init ++ (es.map f).flatten := by
  induction es generalizing init with
  | nil => simp
  | cons e rest ih => simp [ih]

/-- Appending the separator after every piece is the same as placing it between the
pieces and once more at the end. -/
theorem flatten_map_append_eq_intercalate (sep : GoString) (l : List GoString) (h : l ≠ []) :
    (l.map (· ++ sep)).flatten = sep.intercalate l ++ sep := by
  induction l with
  | nil => exact absurd rfl h
  | cons x rest ih =>
    cases rest with
    | nil => simp [List.intercalate]
    | cons y more =>
      have ih2 := ih (by simp)
      simp only [List.map_cons, List.flatten_cons] at ih2 ⊢
      rw [ih2]
      simp [List.intercalate, List.intersperse]

/-- C20: `PrettyMap` renders a map with at least one entry as `{ `, the entries as
`key: value` separated by `, ` in iteration order, and ` }`; for the empty (or nil) map
it returns ` }` without the opening brace, so `String` renders an instance without labels
with the text ` }` after `Labels: `. -/
theorem PrettyMap_spec :
    PrettyMap ∅ = str " \x7d" ∧
    (∀ m : GoMap, m.entries ≠ [] →
      PrettyMap m = str "\x7b "
        ++ (str ", ").intercalate (m.entries.map (fun e => e.1 ++ str ": " ++ e.2))
        ++ str " \x7d") ∧
    (∀ s : SSH, Instance.String ⟨some s, ∅⟩ =
      some (str "Ip: " ++ s.Address.Ip ++ str ", Port: " ++ fmtInt s.Address.Port
        ++ str ", Username: " ++ s.Username ++ str ", Password: " ++ s.Password
        ++ str ", Labels: " ++ str " \x7d")) := by
  refine ⟨by decide, ?_, fun s => rfl⟩
  intro m hm
  unfold PrettyMap
  have hfold : m.entries.foldl (fun acc e => acc ++ (e.1 ++ str ": " ++ e.2 ++ str ", "))
      (str "\x7b ") = (str "\x7b "
        ++ (str ", ").intercalate (m.entries.map (fun e => e.1 ++ str ": " ++ e.2)))
        ++ str ", " := by
    rw [foldl_append_eq_flatten
      (fun e : (Sigma fun _ : GoString => GoString) => e.1 ++ str ": " ++ e.2 ++ str ", ")]
    have hmap : m.entries.map (fun e => e.1 ++ str ": " ++ e.2 ++ str ", ")
        = (m.entries.map (fun e => e.1 ++ str ": " ++ e.2)).map (· ++ str ", ") := by
      simp [List.map_map]
    rw [hmap, flatten_map_append_eq_intercalate _ _ (by simpa using hm), List.append_assoc]
  simp only [hfold]
  have hsep : (str ", ").length = 2 := by decide
  rw [List.length_append, hsep, Nat.add_sub_cancel, List.take_left']
  rfl

/-- The method `String` and the method `StringDecodePassword` on one instance with a
decodable password: both lines start alike, then the first has the text of `PrettyMap`
and the second has that text as a double-quoted literal. -/
theorem StringDecodePassword_eq_String_quoted (decode : GoString → Except GoString GoString)
    (escape : GoString → GoString) (i : Instance) (s : SSH) (decPwd : GoString)
    (hs : i.SSH = some s) (hd : decode s.Password = Except.ok decPwd) :
    ∃ common : GoString,
      Instance.String { i with SSH := some { s with Password := decPwd } }
        = some (common ++ PrettyMap i.Labels) ∧
      i.StringDecodePassword decode escape
        = some (common ++ fmtSharpV escape (PrettyMap i.Labels), none) := by
  refine ⟨str "Ip: " ++ s.Address.Ip ++ str ", Port: " ++ fmtInt s.Address.Port
    ++ str ", Username: " ++ s.Username ++ str ", Password: " ++ decPwd
    ++ str ", Labels: ", rfl, ?_⟩
  simp only [Instance.StringDecodePassword, hs, hd]

/-- C14 (the code at the failing input): for the instance `root@10.0.0.1:22` with stored
password `cGFzcw==`, which decodes to `pass`, and labels `{mysql: slave}`,
`StringDecodePassword` renders the labels under `%#v`, as the double-quoted literal of
the text of `PrettyMap`, while `String` on the instance with the password `pass` renders
that text as it is: the two lines differ in more than the password. -/
theorem StringDecodePassword_labels_quoted (escape : GoString → GoString) :
    Instance.StringDecodePassword
        (fun p => if p = str "cGFzcw==" then Except.ok (str "pass")
          else Except.error (str "illegal base64 data"))
        escape
        ⟨some ⟨⟨str "10.0.0.1", 22⟩, str "root", str "cGFzcw=="⟩,
          AList.singleton (str "mysql") (str "slave")⟩
      = some (str "Ip: 10.0.0.1, Port: 22, Username: root, Password: pass, Labels: "
          ++ (str "\x22" ++ escape (str "\x7b mysql: slave \x7d") ++ str "\x22"), none) ∧
    Instance.String
        ⟨some ⟨⟨str "10.0.0.1", 22⟩, str "root", str "pass"⟩,
          AList.singleton (str "mysql") (str "slave")⟩
      = some (str "Ip: 10.0.0.1, Port: 22, Username: root, Password: pass, Labels: "
          ++ str "\x7b mysql: slave \x7d") ∧
    str "\x22" ++ escape (str "\x7b mysql: slave \x7d") ++ str "\x22"
      ≠ str "\x7b mysql: slave \x7d" := by
  refine ⟨?_, by decide, ?_⟩
  · obtain ⟨common, h1, h2⟩ := StringDecodePassword_eq_String_quoted
      (fun p => if p = str "cGFzcw==" then Except.ok (str "pass")
        else Except.error (str "illegal base64 data"))
      escape
      ⟨some ⟨⟨str "10.0.0.1", 22⟩, str "root", str "cGFzcw=="⟩,
        AList.singleton (str "mysql") (str "slave")⟩
      ⟨⟨str "10.0.0.1", 22⟩, str "root", str "cGFzcw=="⟩ (str "pass") rfl rfl
    rw [h2]
    have hp : PrettyMap (AList.singleton (str "mysql") (str "slave"))
        = str "\x7b mysql: slave \x7d" := by decide
    have hc : common = str "Ip: 10.0.0.1, Port: 22, Username: root, Password: pass, Labels: " := by
      have h3 : some (common ++ PrettyMap (AList.singleton (str "mysql") (str "slave")))
          = some (str "Ip: 10.0.0.1, Port: 22, Username: root, Password: pass, Labels: "
            ++ str "\x7b mysql: slave \x7d") := by
        rw [← h1]
        decide
      rw [hp] at h3
      exact List.append_cancel_right (Option.some.inj h3)
    rw [hc]
    simp only [hp, fmtSharpV]
    have hq : str "\x22" = [34] := by decide
    rw [hq]
    rfl
  · have hq : str "\x22" = [34] := by decide
    have hb : str "\x7b mysql: slave \x7d" = 123 :: str " mysql: slave \x7d" := by decide
    rw [hq, hb]
    intro h
    simp only [List.singleton_append, List.cons_append, List.cons.injEq] at h
    exact absurd h.1 (by decide)

/-! ## Theorems: pkg/file/io.go -/

/-- C15 (counterexample): the index file holds `old`; a call of `SaveBytesAsFile` with the
content `new-index` whose write fails after three bytes returns the error and leaves the
file with the content `new`: the previous content is gone and a partial file remains. -/
theorem SaveBytesAsFile_not_atomic :
    (SaveBytesAsFile (AList.singleton (str "/c/cache_index.yaml") (Node.file (str "old")))
        none (some (3, str "no space left on device")) (str "/c/cache_index.yaml")
        (str "new-index")).1 = some (str "no space left on device") ∧
    (SaveBytesAsFile (AList.singleton (str "/c/cache_index.yaml") (Node.file (str "old")))
        none (some (3, str "no space left on device")) (str "/c/cache_index.yaml")
        (str "new-index")).2.lookup (str "/c/cache_index.yaml")
      = some (Node.file (str "new")) ∧
    (AList.singleton (str "/c/cache_index.yaml") (Node.file (str "old")) : FileSystem).lookup
        (str "/c/cache_index.yaml") = some (Node.file (str "old")) := by
  decide

/-- C15 (amended): `SaveBytesAsFile` (and `SaveStringAsFile`, the same function of the
state) creates or truncates the target file and then writes the content. After a call
that returns nil the file holds exactly the content. A call whose creation step fails
returns the error and leaves the file system unchanged. A call whose write step fails
after `n` bytes returns the error and leaves the file with the first `n` bytes of the
content, whatever the file held before. -/
theorem SaveBytesAsFile_spec (fs : FileSystem) (createFault : Option GoString)
    (writeFault : Option (Nat × GoString)) (path content : GoString) :
    SaveStringAsFile fs createFault writeFault path content
      = SaveBytesAsFile fs createFault writeFault path content ∧
    ((SaveBytesAsFile fs createFault writeFault path content).1 = none →
      (SaveBytesAsFile fs createFault writeFault path content).2.lookup path
        = some (Node.file content)) ∧
    (∀ err, osCreate fs createFault path = Except.error err →
      SaveBytesAsFile fs createFault writeFault path content = (some err, fs)) ∧
    (∀ created n err, osCreate fs createFault path = Except.ok created →
      writeFault = some (n, err) →
      (SaveBytesAsFile fs createFault writeFault path content).1 = some err ∧
      (SaveBytesAsFile fs createFault writeFault path content).2.lookup path
        = some (Node.file (content.take n))) := by
  refine ⟨rfl, ?_, ?_, ?_⟩
  · intro h
    unfold SaveBytesAsFile at h ⊢
    cases hc : osCreate fs createFault path with
    | error err => simp [hc] at h
    | ok created =>
      cases hw : writeFault with
      | none => simp [fileWrite]
      | some f =>
        obtain ⟨n, err⟩ := f
        simp [hc, hw, fileWrite] at h
  · intro err hc
    simp [SaveBytesAsFile, hc]
  · intro created n err hc hw
    simp [SaveBytesAsFile, hc, hw, fileWrite]

/-- A call without faults on the index file that held `old` leaves it with the new
content. -/
theorem SaveBytesAsFile_spec_witness :
    (SaveBytesAsFile (AList.singleton (str "/c/cache_index.yaml") (Node.file (str "old")))
        none none (str "/c/cache_index.yaml") (str "new-index")).2.lookup
          (str "/c/cache_index.yaml") = some (Node.file (str "new-index")) :=
  (SaveBytesAsFile_spec (AList.singleton (str "/c/cache_index.yaml") (Node.file (str "old")))
    none none (str "/c/cache_index.yaml") (str "new-index")).2.1 (by decide)

/-- C16 (the code at the failing input): when the path `/home/u/.gopssh/.cache` is a
regular file, `EnsureDirExist` returns nil and leaves the file system unchanged, so no
directory exists at the path afterwards. -/
theorem EnsureDirExist_accepts_regular_file
    (mkdirAll : FileSystem → GoString → Option GoString × FileSystem) :
    EnsureDirExist mkdirAll none
        ((AList.singleton (str "/home/u/.gopssh") Node.dir).insert
          (str "/home/u/.gopssh/.cache") (Node.file (str "x")))
        (str "/home/u/.gopssh/.cache")
      = (none, (AList.singleton (str "/home/u/.gopssh") Node.dir).insert
          (str "/home/u/.gopssh/.cache") (Node.file (str "x"))) ∧
    ((AList.singleton (str "/home/u/.gopssh") Node.dir).insert
          (str "/home/u/.gopssh/.cache") (Node.file (str "x")) : FileSystem).lookup
        (str "/home/u/.gopssh/.cache") = some (Node.file (str "x")) := by
  have hstat : osStat ((AList.singleton (str "/home/u/.gopssh") Node.dir).insert
      (str "/home/u/.gopssh/.cache") (Node.file (str "x"))) none
      (str "/home/u/.gopssh/.cache") = StatResult.info false := by decide
  refine ⟨?_, by decide⟩
  simp only [EnsureDirExist, hstat]

/-! ## Theorems: lexical path cleaning and the cache layout -/

/-- Splitting never gives an empty list of pieces. -/
theorem splitSlash_ne_nil (p : GoString) : splitSlash p ≠ [] := by
  cases p with
  | nil => simp [splitSlash]
  | cons b rest =>
    unfold splitSlash
    by_cases hb : b = slash
    · simp [hb]
    · simp only [hb, if_false]
      cases splitSlash rest <;> simp

/-- No piece of a split path contains a slash. -/
theorem slash_not_mem_of_mem_splitSlash (p e : GoString) (he : e ∈ splitSlash p) :
    slash ∉ e := by
  induction p generalizing e with
  | nil =>
    simp only [splitSlash, List.mem_singleton] at he
    simp [he]
  | cons b rest ih =>
    unfold splitSlash at he
    by_cases hb : b = slash
    · simp only [hb, if_true, List.mem_cons] at he
      rcases he with he | he
      · simp [he]
      · exact ih e he
    · simp only [hb, if_false] at he
      cases hs : splitSlash rest with
      | nil => exact absurd hs (splitSlash_ne_nil rest)
      | cons f fs =>
        rw [hs] at he ih
        simp only [List.mem_cons] at he
        rcases he with he | he
        · subst he
          intro hmem
          rcases List.mem_cons.mp hmem with h1 | h1
          · exact hb h1.symm
          · exact ih f (by simp) h1
        · exact ih e (by simp [he])

/-- A path without slash is a single piece. -/
theorem splitSlash_of_not_mem (e : GoString) (he : slash ∉ e) : splitSlash e = [e] := by
  induction e with
  | nil => rfl
  | cons b rest ih =>
    have hb : b ≠ slash := fun h => he (by simp [h])
    have hr : slash ∉ rest := fun h => he (by simp [h])
    unfold splitSlash
    simp only [hb, if_false, ih hr]

/-- Splitting a path that starts with a byte other than the slash: the byte joins the
first piece of the rest. -/
theorem splitSlash_cons_of_ne (c : UInt8) (rest : GoString) (hc : c ≠ slash) :
    ∃ f fs, splitSlash rest = f :: fs ∧ splitSlash (c :: rest) = (c :: f) :: fs := by
  cases hs : splitSlash rest with
  | nil => exact absurd hs (splitSlash_ne_nil rest)
  | cons f fs =>
    refine ⟨f, fs, rfl, ?_⟩
    rw [splitSlash, if_neg hc, hs]

/-- Splitting distributes over a slash between two parts. -/
theorem splitSlash_append_slash (a b : GoString) :
    splitSlash (a ++ slash :: b) = splitSlash a ++ splitSlash b := by
  induction a with
  | nil => simp [splitSlash]
  | cons c rest ih =>
    by_cases hc : c = slash
    · simp [splitSlash, hc, ih]
    · obtain ⟨f, fs, h1, h2⟩ := splitSlash_cons_of_ne c rest hc
      obtain ⟨g, gs, h3, h4⟩ := splitSlash_cons_of_ne c (rest ++ slash :: b) hc
      rw [List.cons_append, h4, h2]
      rw [ih, h1] at h3
      simp only [List.cons_append, List.cons.injEq] at h3
      rw [← h3.1, ← h3.2]
      rfl

/-- Joining with one more piece at the end. -/
theorem joinSlash_concat (kept : List GoString) (hk : kept ≠ []) (e : GoString) :
    joinSlash (kept ++ [e]) = joinSlash kept ++ slash :: e := by
  induction kept with
  | nil => exact absurd rfl hk
  | cons x rest ih =>
    cases rest with
    | nil => simp [joinSlash]
    | cons y more =>
      have h := ih (by simp)
      have e3 : ∀ (a b : GoString) (r : List GoString),
          joinSlash (a :: b :: r) = a ++ slash :: joinSlash (b :: r) := fun _ _ _ => rfl
      rw [List.cons_append, List.cons_append, e3, ← List.cons_append, h, e3]
      simp

/-- Splitting undoes joining, for pieces without slash. -/
theorem splitSlash_joinSlash (kept : List GoString) (hk : kept ≠ [])
    (hs : ∀ e ∈ kept, slash ∉ e) : splitSlash (joinSlash kept) = kept := by
  induction kept with
  | nil => exact absurd rfl hk
  | cons x rest ih =>
    cases rest with
    | nil => simpa [joinSlash] using splitSlash_of_not_mem x (hs x (by simp))
    | cons y more =>
      have h1 := ih (by simp) (fun e he => hs e (by simp [he]))
      simp only [joinSlash, splitSlash_append_slash] at h1 ⊢
      rw [h1, splitSlash_of_not_mem x (hs x (by simp))]
      rfl

/-- One step of the cleaning keeps the invariant. -/
theorem cleanStep_cleanKept (rooted : Bool) (kept : List GoString) (e : GoString)
    (h : CleanKept rooted kept) (he : slash ∉ e) : CleanKept rooted (cleanStep rooted kept e) := by
  obtain ⟨h1, h2, h3⟩ := h
  unfold cleanStep
  by_cases hskip : e = [] ∨ e = str "."
  · rw [if_pos hskip]
    exact ⟨h1, h2, h3⟩
  · rw [if_neg hskip]
    have hne : e ≠ [] := fun h => hskip (Or.inl h)
    have hnd : e ≠ str "." := fun h => hskip (Or.inr h)
    by_cases hdd : e = str ".."
    · rw [if_pos hdd]
      by_cases hback : kept ≠ [] ∧ kept.getLast? ≠ some (str "..")
      · rw [if_pos hback]
        refine ⟨fun x hx => h1 x (List.mem_of_mem_dropLast hx),
          fun hr hx => h2 hr (List.mem_of_mem_dropLast hx), h3.init⟩
      · rw [if_neg hback]
        by_cases hr : rooted = true
        · rw [if_pos hr]
          exact ⟨h1, h2, h3⟩
        · rw [if_neg hr]
          refine ⟨?_, fun hr2 => absurd hr2 hr, ?_⟩
          · intro x hx
            rcases List.mem_append.mp hx with hx | hx
            · exact h1 x hx
            · rw [List.mem_singleton.mp hx]
              exact ⟨hne, hnd, he⟩
          · rw [List.chain'_append]
            refine ⟨h3, List.chain'_singleton _, ?_⟩
            intro x hx y _ _
            have hk : kept ≠ [] := by
              intro hk
              rw [hk] at hx
              simp at hx
            by_contra hxd
            apply hback
            refine ⟨hk, ?_⟩
            rw [Option.mem_def.mp hx]
            intro hsome
            exact hxd (Option.some.inj hsome)
    · rw [if_neg hdd]
      refine ⟨?_, ?_, ?_⟩
      · intro x hx
        rcases List.mem_append.mp hx with hx | hx
        · exact h1 x hx
        · rw [List.mem_singleton.mp hx]
          exact ⟨hne, hnd, he⟩
      · intro hr hx
        rcases List.mem_append.mp hx with hx | hx
        · exact h2 hr hx
        · exact hdd (List.mem_singleton.mp hx).symm
      · rw [List.chain'_append]
        refine ⟨h3, List.chain'_singleton _, ?_⟩
        intro x _ y hy hyd
        simp only [List.head?_cons, Option.mem_def, Option.some.injEq] at hy
        exact absurd (hy ▸ hyd) hdd

/-- Cleaning a sequence of slash-free elements keeps the invariant. -/
theorem foldl_cleanStep_cleanKept (rooted : Bool) (es kept : List GoString)
    (h : CleanKept rooted kept) (hes : ∀ e ∈ es, slash ∉ e) :
    CleanKept rooted (es.foldl (cleanStep rooted) kept) := by
  induction es generalizing kept with
  | nil => exact h
  | cons e rest ih =>
    exact ih _ (cleanStep_cleanKept rooted kept e h (hes e (by simp)))
      (fun x hx => hes x (by simp [hx]))

/-- Cleaning elements that already satisfy the invariant keeps all of them. -/
theorem foldl_cleanStep_of_cleanKept (rooted : Bool) (es kept : List GoString)
    (h : CleanKept rooted (kept ++ es)) : es.foldl (cleanStep rooted) kept = kept ++ es := by
  induction es generalizing kept with
  | nil => simp
  | cons e rest ih =>
    have hstep : cleanStep rooted kept e = kept ++ [e] := by
      obtain ⟨h1, h2, h3⟩ := h
      have hmem : e ∈ kept ++ e :: rest := by simp
      obtain ⟨hne, hnd, _⟩ := h1 e hmem
      unfold cleanStep
      rw [if_neg (by
        intro hor
        rcases hor with hor | hor
        · exact hne hor
        · exact hnd hor)]
      by_cases hdd : e = str ".."
      · rw [if_pos hdd]
        have hr : ¬ rooted = true := fun hr => h2 hr (hdd ▸ hmem)
        have hback : ¬ (kept ≠ [] ∧ kept.getLast? ≠ some (str "..")) := by
          rintro ⟨hk, hl⟩
          rw [List.chain'_append] at h3
          obtain ⟨x, hx⟩ := Option.ne_none_iff_exists'.mp
            (fun hn => hk (List.getLast?_eq_none_iff.mp hn))
          have := h3.2.2 x (Option.mem_def.mpr hx) e (by simp) hdd
          exact hl (by rw [hx, this])
        rw [if_neg hback, if_neg hr]
      · rw [if_neg hdd]
    rw [List.foldl_cons, hstep, ih (kept ++ [e]) (by simpa using h)]
    simp

/-- An element that is neither empty, `.` nor `..` is kept. -/
theorem cleanStep_plain (rooted : Bool) (kept : List GoString) (e : GoString)
    (h0 : e ≠ []) (h1 : e ≠ str ".") (h2 : e ≠ str "..") :
    cleanStep rooted kept e = kept ++ [e] := by
  unfold cleanStep
  rw [if_neg (by
    intro hor
    rcases hor with hor | hor
    · exact h0 hor
    · exact h1 hor), if_neg h2]

/-- The kept elements of any path satisfy the invariant. -/
theorem keptElements_cleanKept (path : GoString) :
    CleanKept (pathRooted path) (keptElements path) := by
  unfold keptElements
  apply foldl_cleanStep_cleanKept
  · exact ⟨fun e he => absurd he (by simp), fun _ h => absurd h (by simp), List.chain'_nil⟩
  · exact fun e he => slash_not_mem_of_mem_splitSlash path e he

/-- A join of kept elements does not start with a slash. -/
theorem head?_joinSlash_ne_slash (kept : List GoString)
    (h : ∀ e ∈ kept, e ≠ [] ∧ e ≠ str "." ∧ slash ∉ e) :
    (joinSlash kept).head? ≠ some slash := by
  cases kept with
  | nil => simp [joinSlash]
  | cons x rest =>
    obtain ⟨hne, _, hs⟩ := h x (by simp)
    cases x with
    | nil => exact absurd rfl hne
    | cons b more =>
      have hb : b ≠ slash := fun hb => hs (by simp [hb])
      cases rest with
      | nil => simpa [joinSlash] using hb
      | cons y ys => simpa [joinSlash] using hb

/-- Appending a plain element keeps the invariant. -/
theorem cleanKept_concat (rooted : Bool) (kept : List GoString) (e : GoString)
    (h : CleanKept rooted kept) (h0 : e ≠ []) (h1 : e ≠ str ".") (h2 : e ≠ str "..")
    (hs : slash ∉ e) : CleanKept rooted (kept ++ [e]) := by
  have := cleanStep_cleanKept rooted kept e h hs
  rwa [cleanStep_plain rooted kept e h0 h1 h2] at this

/-- Cleaning is stable under a plain last element: if the clean form of a path keeps at
least one element, the clean form followed by a slash and a plain name is clean. -/
theorem filepathClean_append_plain (path name : GoString) (hp : path ≠ [])
    (hk : keptElements path ≠ []) (h0 : name ≠ []) (h1 : name ≠ str ".")
    (h2 : name ≠ str "..") (hs : slash ∉ name) :
    filepathClean path ≠ [] ∧
    filepathClean (filepathClean path ++ slash :: name) = filepathClean path ++ slash :: name := by
  have hinv := keptElements_cleanKept path
  have hinv2 := cleanKept_concat _ _ name hinv h0 h1 h2 hs
  have hsplit : splitSlash (joinSlash (keptElements path) ++ slash :: name)
      = keptElements path ++ [name] := by
    rw [splitSlash_append_slash, splitSlash_joinSlash _ hk (fun e he => (hinv.1 e he).2.2),
      splitSlash_of_not_mem name hs]
  by_cases hr : pathRooted path = true
  · have hc : filepathClean path = slash :: joinSlash (keptElements path) := by
      rw [filepathClean, if_neg hp, if_pos hr]
    rw [hc]
    refine ⟨by simp, ?_⟩
    have hr2 : pathRooted (slash :: joinSlash (keptElements path) ++ slash :: name) = true := by
      simp [pathRooted]
    have hk2 : keptElements (slash :: joinSlash (keptElements path) ++ slash :: name)
        = keptElements path ++ [name] := by
      rw [show keptElements (slash :: joinSlash (keptElements path) ++ slash :: name)
        = (splitSlash (slash :: joinSlash (keptElements path) ++ slash :: name)).foldl
          (cleanStep (pathRooted (slash :: joinSlash (keptElements path) ++ slash :: name))) []
        from rfl]
      rw [hr2, List.cons_append, splitSlash, if_pos rfl, hsplit, List.foldl_cons]
      have hskip : cleanStep true [] [] = [] := by simp [cleanStep]
      rw [hskip]
      have := foldl_cleanStep_of_cleanKept true (keptElements path ++ [name]) []
        (by simpa [hr] using hinv2)
      simpa using this
    rw [filepathClean, if_neg (by simp), if_pos hr2, hk2, joinSlash_concat _ hk]
    simp
  · have hc : filepathClean path = joinSlash (keptElements path) := by
      rw [filepathClean, if_neg hp, if_neg hr, if_neg hk]
    rw [hc]
    have hhead := head?_joinSlash_ne_slash (keptElements path) hinv.1
    have hne : joinSlash (keptElements path) ≠ [] := by
      intro hnil
      have := congrArg splitSlash hnil
      rw [splitSlash_joinSlash _ hk (fun e he => (hinv.1 e he).2.2)] at this
      have hmem : ([] : GoString) ∈ keptElements path := by
        rw [this]
        simp [splitSlash]
      exact (hinv.1 [] hmem).1 rfl
    refine ⟨hne, ?_⟩
    have hr2 : pathRooted (joinSlash (keptElements path) ++ slash :: name) = false := by
      unfold pathRooted
      rw [List.head?_append_of_ne_nil _ hne]
      simpa using hhead
    have hr' : pathRooted path = false := by simpa using hr
    have hk2 : keptElements (joinSlash (keptElements path) ++ slash :: name)
        = keptElements path ++ [name] := by
      rw [show keptElements (joinSlash (keptElements path) ++ slash :: name)
        = (splitSlash (joinSlash (keptElements path) ++ slash :: name)).foldl
          (cleanStep (pathRooted (joinSlash (keptElements path) ++ slash :: name))) []
        from rfl]
      rw [hr2, hsplit]
      have := foldl_cleanStep_of_cleanKept false (keptElements path ++ [name]) []
        (by simpa [hr'] using hinv2)
      simpa using this
    rw [filepathClean, if_neg (by simp), hr2, if_neg (by simp), hk2, if_neg (by simp),
      joinSlash_concat _ hk]

/-- The argument of `filepath.Clean` in `GetCacheDir`: a non-empty path whose clean form
keeps at least the two elements of `cacheDirName`. -/
theorem GetCacheDir_eq_clean (home : GoString) :
    ∃ path : GoString, path ≠ [] ∧ keptElements path ≠ [] ∧
      GetCacheDir home = filepathClean path := by
  by_cases hh : home = []
  · refine ⟨cacheDirName, by decide, by decide, ?_⟩
    subst hh
    rfl
  · refine ⟨home ++ slash :: cacheDirName, by simp, ?_, ?_⟩
    · rw [show keptElements (home ++ slash :: cacheDirName)
        = (splitSlash (home ++ slash :: cacheDirName)).foldl
          (cleanStep (pathRooted (home ++ slash :: cacheDirName))) [] from rfl,
        splitSlash_append_slash, List.foldl_append]
      have hsp : splitSlash cacheDirName = [str ".gopssh", str ".cache"] := by decide
      rw [hsp, List.foldl_cons, List.foldl_cons, List.foldl_nil,
        cleanStep_plain _ _ (str ".gopssh") (by decide) (by decide) (by decide),
        cleanStep_plain _ _ (str ".cache") (by decide) (by decide) (by decide)]
      simp
    · unfold GetCacheDir filepathJoin
      rw [if_pos hh]

/-- Joining the cache directory with a plain file name appends a slash and the name. -/
theorem filepathJoin_GetCacheDir (home name : GoString) (h0 : name ≠ [])
    (h1 : name ≠ str ".") (h2 : name ≠ str "..") (hs : slash ∉ name) :
    filepathJoin (GetCacheDir home) name = GetCacheDir home ++ str "/" ++ name := by
  obtain ⟨path, hp, hk, hdir⟩ := GetCacheDir_eq_clean home
  obtain ⟨hne, hclean⟩ := filepathClean_append_plain path name hp hk h0 h1 h2 hs
  rw [hdir]
  unfold filepathJoin
  rw [if_pos hne, hclean]
  have hsl : str "/" = [slash] := by decide
  rw [hsl]
  simp

/-- A base name of at least five bytes contains no slash. -/
theorem slash_not_mem_filepathBase (path : GoString) (h : 5 ≤ (filepathBase path).length) :
    slash ∉ filepathBase path := by
  unfold filepathBase at h ⊢
  by_cases hp : path = []
  · rw [if_pos hp] at h
    exact absurd h (by decide)
  · rw [if_neg hp] at h ⊢
    by_cases hl : (path.rdropWhile (· == slash)).rtakeWhile (· != slash) = []
    · simp only [hl, if_true] at h
      exact absurd h (by decide)
    · simp only [hl, if_false]
      intro hmem
      have := List.mem_rtakeWhile_imp hmem
      simp at this

/-- The base name of a directory path followed by a slash and a slash-free name is the
name. -/
theorem filepathBase_append_plain (d name : GoString) (h0 : name ≠ []) (hs : slash ∉ name) :
    filepathBase (d ++ slash :: name) = name := by
  have hsplit : ∀ l : GoString, slash ∉ l →
      (d ++ slash :: l).rtakeWhile (· != slash) = l := by
    intro l hl
    induction l using List.reverseRecOn with
    | nil =>
      rw [List.rtakeWhile_concat_neg (fun z => z != slash) d slash (by simp)]
    | append_singleton l x ih =>
      have hx : x ≠ slash := fun h => hl (by simp [h])
      have hl2 : slash ∉ l := fun h => hl (by simp [h])
      have hassoc : d ++ slash :: (l ++ [x]) = (d ++ slash :: l) ++ [x] := by simp
      rw [hassoc, List.rtakeWhile_concat_pos (fun z => z != slash) _ x (by simpa using hx),
        ih hl2]
  have hstrip : (d ++ slash :: name).rdropWhile (· == slash) = d ++ slash :: name := by
    rcases List.eq_nil_or_concat name with h | ⟨l, x, h⟩
    · exact absurd h h0
    · have hx : x ≠ slash := fun hx => hs (by simp [h, hx])
      have hassoc : d ++ slash :: name = (d ++ slash :: l) ++ [x] := by simp [h]
      rw [hassoc, List.rdropWhile_concat_neg (fun z => z == slash) _ x (by simpa using hx)]
  simp only [filepathBase]
  rw [if_neg (by simp), hstrip, hsplit name hs, if_neg h0]

/-- C11: the index path is the join of the cache directory with `cache_index.yaml`; a
generated artifact name contains no path separator (the token of the random source, being
alphanumeric, has none); so the artifact path, the join of the cache directory with that
name, is the cache directory followed by one slash and the name, and the index path is
the cache directory followed by one slash and `cache_index.yaml`: both are direct
children of the cache directory. -/
theorem cache_layout (home configPath token name : GoString)
    (hgen : GenerateCacheFileNameByConfig configPath token = some name)
    (htok : slash ∉ token) :
    GetCacheIndexPath home = filepathJoin (GetCacheDir home) cacheIndexName ∧
    slash ∉ name ∧
    GenerateCacheFilePathByConfig home configPath token
      = some (filepathJoin (GetCacheDir home) name) ∧
    filepathJoin (GetCacheDir home) name = GetCacheDir home ++ str "/" ++ name ∧
    GetCacheIndexPath home = GetCacheDir home ++ str "/" ++ cacheIndexName ∧
    filepathBase (GetCacheDir home ++ str "/" ++ name) = name := by
  have hname := hgen
  rw [GenerateCacheFileNameByConfig_eq] at hname
  by_cases hle : 5 ≤ (filepathBase configPath).length
  · rw [if_pos hle] at hname
    have hn := (Option.some.inj hname).symm
    have hslash : slash ∉ name := by
      rw [hn]
      have hb := slash_not_mem_filepathBase configPath hle
      have ht : slash ∉ (filepathBase configPath).take ((filepathBase configPath).length - 5) :=
        fun hm => hb (List.mem_of_mem_take hm)
      have hc : slash ∉ str "cache_" := by decide
      have hu : slash ∉ str "_" := by decide
      have hy : slash ∉ str ".yaml" := by decide
      simp only [List.mem_append, not_or]
      exact ⟨⟨⟨⟨hc, ht⟩, hu⟩, htok⟩, hy⟩
    have hlen : 12 ≤ name.length := by
      rw [hn]
      have hc : (str "cache_").length = 6 := by decide
      have hu : (str "_").length = 1 := by decide
      have hy : (str ".yaml").length = 5 := by decide
      simp only [List.length_append, hc, hu, hy]
      omega
    have h0 : name ≠ [] := by
      intro h
      rw [h] at hlen
      simp at hlen
    have h1 : name ≠ str "." := by
      intro h
      rw [h] at hlen
      exact absurd hlen (by decide)
    have h2 : name ≠ str ".." := by
      intro h
      rw [h] at hlen
      exact absurd hlen (by decide)
    refine ⟨rfl, hslash, ?_, filepathJoin_GetCacheDir home name h0 h1 h2 hslash,
      filepathJoin_GetCacheDir home cacheIndexName (by decide) (by decide) (by decide)
        (by decide), ?_⟩
    · unfold GenerateCacheFilePathByConfig
      rw [hgen]
    · have hsl : str "/" = [slash] := by decide
      rw [hsl, List.append_assoc, List.singleton_append]
      exact filepathBase_append_plain _ name h0 hslash
  · rw [if_neg hle] at hname
    exact absurd hname (by simp)

/-- With the home directory `/home/u`, the configuration path `x/inventory.yaml` and the
token `j9sxt`: the artifact path is `/home/u/.gopssh/.cache/cache_inventory_j9sxt.yaml`
and the index path is `/home/u/.gopssh/.cache/cache_index.yaml`. -/
theorem cache_layout_witness :
    GetCacheDir (str "/home/u") = str "/home/u/.gopssh/.cache" ∧
    GenerateCacheFilePathByConfig (str "/home/u") (str "x/inventory.yaml") (str "j9sxt")
      = some (filepathJoin (GetCacheDir (str "/home/u")) (str "cache_inventory_j9sxt.yaml")) ∧
    filepathJoin (GetCacheDir (str "/home/u")) (str "cache_inventory_j9sxt.yaml")
      = GetCacheDir (str "/home/u") ++ str "/" ++ str "cache_inventory_j9sxt.yaml" ∧
    GetCacheIndexPath (str "/home/u")
      = GetCacheDir (str "/home/u") ++ str "/" ++ cacheIndexName :=
  have h := cache_layout (str "/home/u") (str "x/inventory.yaml") (str "j9sxt")
    (str "cache_inventory_j9sxt.yaml") (by decide) (by decide)
  ⟨by decide, h.2.2.1, h.2.2.2.1, h.2.2.2.2.1⟩

end Gopssh
